import Mathlib

/-!
Verification model of the multi-repository release orchestrator implemented in
scripts/ci/publish.ts of the prisma2-development-environment repository.

Pure functions of the TypeScript source are translated into executable Lean
definitions.  External collaborators (git, the npm registry, Node path
utilities, and the npm packages semver and batching-toposort) are modelled as
explicit oracle inputs, or as definitions whose doc comment says they are
modelled from the specification where the deciding code is not part of this
repository.  Stateful control flow of the publish entry point is modelled as a
pure pipeline over an environment record, returning Except over a structured
error type whose constructors correspond to the throw sites of the source.
-/

namespace Publish

/-- Boolean prefix test on character lists. -/
def charPrefix : List Char → List Char → Bool
  | [], _ => true
  | _ :: _, [] => false
  | a :: as, b :: bs => a == b && charPrefix as bs

/-- JavaScript String.prototype.startsWith on the modelled strings. -/
def strStartsWith (s pre : String) : Bool :=
  charPrefix pre.data s.data

/-- Whitespace characters relevant to the trims the source performs. -/
def isWsChar (c : Char) : Bool :=
  c == ' ' || c == '\t' || c == '\n' || c == '\r'

/-- JavaScript String.prototype.trim on the modelled strings. -/
def strTrim (s : String) : String :=
  String.mk (((s.data.dropWhile isWsChar).reverse.dropWhile isWsChar).reverse)

/-- Split a character list at the first occurrence of a separator, returning
the part before it and, when the separator occurs, the part after it. -/
def splitFirst (c : Char) : List Char → List Char × Option (List Char)
  | [] => ([], none)
  | x :: xs =>
    if x = c then ([], some xs)
    else
      let r := splitFirst c xs
      (x :: r.1, r.2)

/-- Split a character list at every occurrence of a separator.  The result is
always non-empty and empty segments are kept. -/
def splitAll (c : Char) : List Char → List (List Char)
  | [] => [[]]
  | x :: xs =>
    let r := splitAll c xs
    if x = c then [] :: r
    else
      match r with
      | [] => [[x]]
      | h :: t => (x :: h) :: t

/-- Join character segments with a separator character. -/
def intercalateChar (c : Char) : List (List Char) → List Char
  | [] => []
  | [x] => x
  | x :: y :: t => x ++ c :: intercalateChar c (y :: t)

/-- Split a string at every occurrence of a separator character. -/
def strSplitChar (c : Char) (s : String) : List String :=
  (splitAll c s.data).map String.mk

/-- Substring search on character lists. -/
def charContains (needle : List Char) : List Char → Bool
  | [] => needle.isEmpty
  | x :: rest => charPrefix needle (x :: rest) || charContains needle rest

/-- JavaScript String.prototype.includes on the modelled strings. -/
def strIncludes (s pat : String) : Bool :=
  charContains pat.data s.data

/-- Numeric value of a list of decimal digit characters. -/
def digitsToNat (l : List Char) : Nat :=
  l.foldl (fun a c => a * 10 + (c.toNat - '0'.toNat)) 0

/-- Workspace package node, mirroring the Package interface of publish.ts
(name, path, version, derived reverse edges usedBy and usedByDev, declared
forward edges uses and usesDev).  The packageJson payload is dropped except
for the fields the modelled code reads. -/
structure Package where
  name : String
  path : String
  version : String
  usedBy : List String
  usedByDev : List String
  uses : List String
  usesDev : List String
deriving DecidableEq, Repr

/-- ChangedPackage of publish.ts: a Package together with the computed
newVersion.  The TypeScript field has type string but receives null when
patchVersion fails to parse, hence Option String here. -/
structure ChangedPackage extends Package where
  newVersion : Option String
deriving DecidableEq, Repr

/-- Raw manifest data as consumed by getPackageDependencies: path, name,
version and the keys of dependencies and devDependencies. -/
structure RawPackage where
  path : String
  name : String
  version : String
  dependencies : List String
  devDependencies : List String
deriving DecidableEq, Repr

/-- getPrismaDependencies of publish.ts: keep dependency names in the
@prisma namespace, excluding the @prisma/studio sub-namespace. -/
def getPrismaDependencies (dependencies : List String) : List String :=
  dependencies.filter (fun d => strStartsWith d "@prisma" && !(strStartsWith d "@prisma/studio"))

/-- First pass of getPackageDependencies: build each Package with empty
reverse edges and filtered forward edges. -/
def basePackages (raw : List RawPackage) : List Package :=
  raw.map (fun r =>
    { name := r.name
      path := r.path
      version := r.version
      usedBy := []
      usedByDev := []
      uses := getPrismaDependencies r.dependencies
      usesDev := getPrismaDependencies r.devDependencies })

/-- getPackageDependencies of publish.ts: populate usedBy and usedByDev by
inverting uses and usesDev; a dependency name not present among the loaded
packages creates no edge (the source logs and skips it). -/
def getPackageDependencies (raw : List RawPackage) : List Package :=
  let base := basePackages raw
  base.map (fun p =>
    { p with
      usedBy := (base.filter (fun q => q.uses.contains p.name)).map (fun q => q.name)
      usedByDev := (base.filter (fun q => q.usesDev.contains p.name)).map (fun q => q.name) })

/-- intersection helper of publish.ts: arr1.filter(value => arr2.includes(value)). -/
def intersection (arr1 arr2 : List String) : List String :=
  arr1.filter (fun value => arr2.contains value)

/-- getCircularDependencies of publish.ts: for every package, intersect its
outgoing dependency names with its reverse-edge names; collect the non-empty
intersections. -/
def getCircularDependencies (packages : List Package) : List (List String) :=
  (packages.map (fun p => intersection (p.uses ++ p.usesDev) (p.usedBy ++ p.usedByDev))).filter
    (fun circles => !circles.isEmpty)

/-- Node path.dirname restricted to the forward-slash relative paths this
repository uses: drop the final path component, returning a dot for a
bare file name. -/
def dirname (p : String) : String :=
  match (splitAll '/' p.data).dropLast with
  | [] => "."
  | parts => String.mk (intercalateChar '/' parts)

/-- Anchor package names as listed at the prisma2AndPhotonOnly branch of
getPackagesAffectedByChange. -/
def anchors : List String := ["@prisma/photon", "prisma2"]

/-- Membership test used at several places of publish.ts for the two anchor
packages prisma2 and @prisma/photon. -/
def isAnchorName (n : String) : Bool :=
  n == "@prisma/photon" || n == "prisma2"

/-- Package lookup by name, modelling access to the string-keyed Packages
object of publish.ts. -/
def lookupPkg (packages : List Package) (n : String) : Option Package :=
  packages.find? (fun p => p.name == n)

/-- Names of the packages of a workspace. -/
def pkgNames (packages : List Package) : List String :=
  packages.map (fun p => p.name)

/-- Reverse-dependency adjacency used by the addDependants recursion of
getPackagesAffectedByChange: the usedBy and usedByDev lists of the named
package. -/
def pkgAdj (packages : List Package) (n : String) : List String :=
  match lookupPkg packages n with
  | some p => p.usedBy ++ p.usedByDev
  | none => []

/-- Elements reachable in one adjacency step from members of s that are not
already members of s. -/
def stepNew {α : Type} [DecidableEq α] (adj : α → List α) (s : List α) : List α :=
  ((s.map adj).flatten.filter (fun q => !(decide (q ∈ s)))).dedup

/-- Fuelled reflexive-transitive closure accumulation: the functional form of
the addDependants worklist of getPackagesAffectedByChange.  Each round adds
every adjacency target of the current set that is not yet present, stopping
at a fixpoint or when fuel runs out. -/
def closureAux {α : Type} [DecidableEq α] (adj : α → List α) : Nat → List α → List α
  | 0, s => s
  | fuel + 1, s =>
    let new := stepNew adj s
    if new.isEmpty then s else closureAux adj fuel (s ++ new)

/-- Closedness of a list under an adjacency function: every adjacency target
of a member is a member. -/
def IsClosedAdj {α : Type} (adj : α → List α) (c : List α) : Prop :=
  ∀ x ∈ c, ∀ q ∈ adj x, q ∈ c

/-- One-step reverse-dependency reachability relation over an adjacency
function. -/
def adjRel {α : Type} (adj : α → List α) (u v : α) : Prop :=
  v ∈ adj u

/-- Seed of getPackagesAffectedByChange: in forced anchor-only mode the anchor
packages themselves, otherwise every package whose manifest directory is a
prefix of some changed path. -/
def seedNames (packages : List Package) (changes : List String) (force : Bool) : List String :=
  if force then
    (packages.filter (fun p => anchors.contains p.name)).map (fun p => p.name)
  else
    (packages.filter (fun p => changes.any (fun c => strStartsWith c (dirname p.path)))).map
      (fun p => p.name)

/-- Seed with the unconditional @prisma/photon anchor appended when absent,
mirroring the assignment into affectedPackages of publish.ts. -/
def seedWithAnchor (packages : List Package) (changes : List String) (force : Bool) :
    List String :=
  let s := seedNames packages changes force
  if "@prisma/photon" ∈ s then s else s ++ ["@prisma/photon"]

/-- Names of all packages affected by a change: the seed plus every package
reached through the addDependants recursion over usedBy and usedByDev. -/
def affectedNames (packages : List Package) (changes : List String) (force : Bool) :
    List String :=
  closureAux (pkgAdj packages) packages.length (seedWithAnchor packages changes force)

/-- Numeric identifier of the semver grammar used by patchVersion: zero, or a
non-empty digit string without a leading zero. -/
def numericOk (l : List Char) : Bool :=
  !l.isEmpty && l.all (fun c => c.isDigit) &&
    (l == ['0'] || !(l.headD '0' == '0'))

/-- Prerelease identifier of the semver grammar: non-empty, alphanumeric or
hyphen characters, and a purely numeric identifier carries no leading zero. -/
def preIdOk (l : List Char) : Bool :=
  !l.isEmpty && l.all (fun c => c.isAlphanum || c == '-') &&
    (if l.all (fun c => c.isDigit) then numericOk l else true)

/-- Build-metadata identifier of the semver grammar: non-empty, alphanumeric
or hyphen characters. -/
def buildIdOk (l : List Char) : Bool :=
  !l.isEmpty && l.all (fun c => c.isAlphanum || c == '-')

/-- Parse the dotted major.minor.patch core of a version. -/
def parseMMP (l : List Char) : Option (Nat × Nat × Nat) :=
  match splitAll '.' l with
  | [a, b, c] =>
    if numericOk a && numericOk b && numericOk c then
      some (digitsToNat a, digitsToNat b, digitsToNat c)
    else none
  | _ => none

/-- patchVersion of publish.ts: match the version against the anchored
major.minor.patch[-prerelease][+build] semver grammar; on success render
major.minor.(patch+1), dropping prerelease and build metadata; on failure
return null, modelled as none. -/
def patchVersion (version : String) : Option String :=
  let cs := version.data
  let bp := splitFirst '+' cs
  let cd := splitFirst '-' bp.1
  let preOk : Bool :=
    match cd.2 with
    | none => true
    | some pre => (splitAll '.' pre).all preIdOk
  let bOk : Bool :=
    match bp.2 with
    | none => true
    | some b => (splitAll '.' b).all buildIdOk
  match parseMMP cd.1 with
  | some mmp =>
    if preOk && bOk then
      some (toString mmp.1 ++ "." ++ toString mmp.2.1 ++ "." ++ toString (mmp.2.2 + 1))
    else none
  | none => none

/-- patch of publish.ts in its local (non-CI) branch: derive the next version
directly from the local manifest version.  The CI branch additionally asks
the registry for the published version and takes the semver maximum before
bumping; the registry consultation is an external effect not modelled here.
Either branch returns the null of patchVersion unchanged when parsing
fails. -/
def patch (pkg : Package) : Option String :=
  patchVersion pkg.version

/-- newVersion of publish.ts: the anchor packages receive the shared run
version, every other package an independent patch bump. -/
def newVersionOf (pkg : Package) (prisma2Version : String) : Option String :=
  if isAnchorName pkg.name then some prisma2Version else patch pkg

/-- getPackagesAffectedByChange of publish.ts, assembled from the seed, the
addDependants closure and the newVersion assignment. -/
def getPackagesAffectedByChange (packages : List Package) (changes : List String)
    (force : Bool) (prisma2Version : String) : List ChangedPackage :=
  (affectedNames packages changes force).filterMap (fun n =>
    (lookupPkg packages n).map (fun p =>
      { toPackage := p, newVersion := newVersionOf p prisma2Version }))

/-- Maximal run of leading decimal digits. -/
def digitRun : List Char → List Char
  | [] => []
  | c :: cs => if c.isDigit then c :: digitRun cs else []

/-- Leftmost match of the regular expression alpha\.(\d+): scan for the
literal text alpha. followed by at least one digit and read the maximal digit
run as a number. -/
def alphaScan : List Char → Option Nat
  | 'a' :: 'l' :: 'p' :: 'h' :: 'a' :: '.' :: d :: tail =>
    if d.isDigit then some (digitsToNat (d :: digitRun tail))
    else alphaScan ('l' :: 'p' :: 'h' :: 'a' :: '.' :: d :: tail)
  | _ :: rest => alphaScan rest
  | [] => none

/-- Alpha counter extraction of getNewPrisma2Version. -/
def alphaCounter (v : String) : Option Nat :=
  alphaScan v.data

/-- Maximum of a list of naturals, none on the empty list (where the source
computes the JavaScript Math.max of an empty spread, minus infinity). -/
def maxNat : List Nat → Option Nat
  | [] => none
  | x :: xs =>
    match maxNat xs with
    | none => some x
    | some m => some (if x ≤ m then m else x)

/-- Core of getNewPrisma2Version of publish.ts over its four version-string
inputs: keep the non-blank strings, extract each alpha counter, drop the
falsy results (both null for no match and the number zero), and render
2.0.0-alpha.(max+1).  When no counter survives, Math.max of the empty spread
is minus infinity and string interpolation renders the literal text
-Infinity. -/
def gnpvCore (vs : List String) : String :=
  let alphaVersions :=
    ((vs.filter (fun v => !((strTrim v).data.isEmpty))).filterMap alphaCounter).filter
      (fun n => !(n == 0))
  match maxNat alphaVersions with
  | some m => "2.0.0-alpha." ++ toString (m + 1)
  | none => "2.0.0-alpha.-Infinity"

/-- Registry oracle: outputs of the npm info invocations the source makes. -/
structure Registry where
  prisma2Latest : String
  prisma2Alpha : String
  photonAlpha : String
deriving DecidableEq, Repr

/-- Local manifest version of a named package, blank when absent. -/
def versionOf (packages : List Package) (n : String) : String :=
  ((lookupPkg packages n).map (fun p => p.version)).getD ""

/-- getNewPrisma2Version of publish.ts: the alpha-counter computation over the
two anchor manifest versions and the two remote alpha versions. -/
def getNewPrisma2Version (packages : List Package) (reg : Registry) : String :=
  gnpvCore [versionOf packages "prisma2", versionOf packages "@prisma/photon",
    reg.prisma2Alpha, reg.photonAlpha]

/-- Prerelease identifier of a parsed semver value: numeric identifiers
compare as numbers, others as strings. -/
inductive PreId where
  | num (n : Nat)
  | str (s : String)
deriving DecidableEq, Repr

/-- Parsed semver value; build metadata is dropped because it never takes
part in precedence. -/
structure SemVerObj where
  major : Nat
  minor : Nat
  patch : Nat
  pre : List PreId
deriving DecidableEq, Repr

/-- Classify a grammar-valid prerelease identifier. -/
def preIdParse (l : List Char) : PreId :=
  if !l.isEmpty && l.all (fun c => c.isDigit) then .num (digitsToNat l)
  else .str (String.mk l)

/-- Parse a version against the anchored semver grammar, keeping the parsed
components. -/
def semverParseStrict (cs : List Char) : Option SemVerObj :=
  let bp := splitFirst '+' cs
  let cd := splitFirst '-' bp.1
  match parseMMP cd.1 with
  | none => none
  | some mmp =>
    let preIds : Option (List PreId) :=
      match cd.2 with
      | none => some []
      | some pre =>
        if (splitAll '.' pre).all preIdOk then some ((splitAll '.' pre).map preIdParse)
        else none
    let bOk : Bool :=
      match bp.2 with
      | none => true
      | some b => (splitAll '.' b).all buildIdOk
    match preIds with
    | some ids =>
      if bOk then some { major := mmp.1, minor := mmp.2.1, patch := mmp.2.2, pre := ids }
      else none
    | none => none

/-- Modelled from the spec: the parser of the external npm semver package, as
used by semver.valid and semver.gt — surrounding whitespace is trimmed, one
leading v is tolerated, then the standard anchored grammar applies. -/
def semverParse (s : String) : Option SemVerObj :=
  let t := (strTrim s).data
  let t2 := match t with
    | 'v' :: rest => rest
    | _ => t
  semverParseStrict t2

/-- Lexicographic order on character lists by code point, the ECMAScript
comparison of two strings. -/
def charListLt : List Char → List Char → Bool
  | [], [] => false
  | [], _ :: _ => true
  | _ :: _, [] => false
  | a :: as, b :: bs =>
    if a.toNat < b.toNat then true
    else if b.toNat < a.toNat then false
    else charListLt as bs

/-- String comparison along the lexicographic order. -/
def strCompare (a b : String) : Ordering :=
  if charListLt a.data b.data then .lt
  else if charListLt b.data a.data then .gt
  else .eq

/-- Modelled from the spec: prerelease identifier precedence of the semver
standard — numeric identifiers compare numerically and precede every
alphanumeric identifier; alphanumeric identifiers compare lexically. -/
def compareIds (a b : PreId) : Ordering :=
  match a, b with
  | .num m, .num n => compare m n
  | .num _, .str _ => .lt
  | .str _, .num _ => .gt
  | .str x, .str y => strCompare x y

/-- Modelled from the spec: prerelease list precedence of the semver
standard — identifier-wise comparison, a strict prefix preceding its
extensions. -/
def comparePre : List PreId → List PreId → Ordering
  | [], [] => .eq
  | [], _ :: _ => .lt
  | _ :: _, [] => .gt
  | a :: as, b :: bs =>
    match compareIds a b with
    | .eq => comparePre as bs
    | o => o

/-- Modelled from the spec: semver precedence — major, minor, patch compared
numerically, then a release preceding no prerelease, then prerelease
precedence. -/
def semverCompare (a b : SemVerObj) : Ordering :=
  match compare a.major b.major with
  | .eq =>
    match compare a.minor b.minor with
    | .eq =>
      match compare a.patch b.patch with
      | .eq =>
        match a.pre, b.pre with
        | [], [] => .eq
        | [], _ :: _ => .gt
        | _ :: _, [] => .lt
        | x, y => comparePre x y
      | o => o
    | o => o
  | o => o

/-- Modelled from the spec: semver.gt of the npm semver package on two
version strings that both parse. -/
def semverGtB (a b : String) : Bool :=
  match semverParse a, semverParse b with
  | some x, some y => decide (semverCompare x y = .gt)
  | _, _ => false

/-- Insertion of an element into a list along a boolean comparator, the
element coming before the first member that does not precede it.  This is the
stable sort underlying the JavaScript Array.prototype.sort call sites, with
le a b meaning comparator(a,b) <= 0. -/
def insertLe {α : Type} (le : α → α → Bool) (x : α) : List α → List α
  | [] => [x]
  | y :: ys => if le x y then x :: y :: ys else y :: insertLe le x ys

/-- Insertion sort along a boolean comparator. -/
def sortLe {α : Type} (le : α → α → Bool) : List α → List α
  | [] => []
  | x :: xs => insertLe le x (sortLe le xs)

/-- Comparator of getCommitMessages as a non-strict precedence on names: an
anchor name precedes everything, a non-anchor name never precedes an anchor,
and two non-anchor names compare lexically. -/
def nameLe (a b : String) : Bool :=
  if isAnchorName a then true
  else if isAnchorName b then false
  else decide (a < b)

/-- getCommitMessages of publish.ts: sort the released packages with the
anchor-first comparator, keep those whose manifest path lies under the given
repository directory, and render name@version from the version field of each
package record. -/
def getCommitMessages (dir : String) (packages : List ChangedPackage) : List String :=
  ((sortLe (fun a b => nameLe a.name b.name) packages).filter
      (fun p => strStartsWith p.path dir)).map (fun p => p.name ++ "@" ++ p.version)

/-- Adjacency of a name in the dependency DAG handed to the toposort. -/
def adjOf (dag : List (String × List String)) (n : String) : List String :=
  match dag.find? (fun e => e.1 == n) with
  | some e => e.2
  | none => []

/-- One layer of the batching toposort: the remaining nodes with no
predecessor among the remaining nodes. -/
def topoStep (dag : List (String × List String)) (remaining : List String) : List String :=
  remaining.filter (fun n => !(remaining.any (fun m => (adjOf dag m).contains n)))

/-- Fuelled batching loop of the toposort: emit a layer, remove it, repeat;
none signals failure to make progress while nodes remain. -/
def topoGo (dag : List (String × List String)) : Nat → List String → Option (List (List String))
  | 0, remaining => if remaining.isEmpty then some [] else none
  | fuel + 1, remaining =>
    if remaining.isEmpty then some []
    else
      let b := topoStep dag remaining
      if b.isEmpty then none
      else
        match topoGo dag fuel (remaining.filter (fun n => !(b.contains n))) with
        | some rest => some (b :: rest)
        | none => none

/-- Modelled from the spec: the external batching-toposort npm package used
by getPublishOrder.  Each successive batch consists of all remaining nodes
whose required predecessors are entirely contained in earlier batches;
inability to make progress while nodes remain signals a cycle. -/
def batchingToposort (dag : List (String × List String)) : Option (List (List String)) :=
  topoGo dag dag.length (dag.map (fun e => e.1))

/-- The dependency DAG getPublishOrder builds: one node per package, its
adjacency the concatenation of usedBy and usedByDev. -/
def pkgDag (packages : List Package) : List (String × List String) :=
  packages.map (fun p => (p.name, p.usedBy ++ p.usedByDev))

/-- getPublishOrder of publish.ts. -/
def getPublishOrder (packages : List Package) : Option (List (List String)) :=
  batchingToposort (pkgDag packages)

/-- Edge relation of a dependency DAG. -/
def dagEdge (dag : List (String × List String)) (m n : String) : Prop :=
  n ∈ adjOf dag m

/-- Node list of a dependency DAG. -/
def dagNodes (dag : List (String × List String)) : List String :=
  dag.map (fun e => e.1)

/-- Executable acyclicity check of a dependency DAG: no node reaches itself
through a non-empty edge path. -/
def acyclicB (dag : List (String × List String)) : Bool :=
  (dagNodes dag).all (fun n =>
    !((closureAux (adjOf dag) dag.length (adjOf dag n)).contains n))

/-- Index of the first batch containing a name. -/
def batchIdx (n : String) : List (List String) → Option Nat
  | [] => none
  | b :: bs => if n ∈ b then some 0 else (batchIdx n bs).map (fun i => i + 1)

/-- Structured form of the fatal errors publish.ts throws; each constructor
corresponds to one throw site and carries the data interpolated into the
message there. -/
inductive Err where
  | dryRunAndPublish
  | releaseNotSemver (v : String)
  | invalidVersion (v : String)
  | releaseNotGreater (v cur : String)
  | releaseNotPreview (v : String)
  | circularDeps (circles : List (List String))
  | repoNotExist (repo : String)
  | unsavedChanges (dir details : String)
  | noChangesDetected
  | toposortCycle
deriving DecidableEq, Repr

/-- Command-line flags and ambient mode switches of the publish entry point.
The release field holds the value after the BUILDKITE_TAG merge; updateStudio
models the UPDATE_STUDIO environment variable.  The run is modelled in its
local, non-CI shape, so the BUILDKITE credential guard is not reached. -/
structure Args where
  publishFlag : Bool
  allRepos : Bool
  repo : Option String
  dryRun : Bool
  release : Option String
  dirty : Bool
  pullMode : Bool
  statusMode : Bool
  testChanged : Bool
  testAll : Bool
  updateStudio : Bool
deriving DecidableEq, Repr

/-- Commit of publish.ts, with the iso date abstracted to a number so that
the date comparison of the sort is total. -/
structure Commit where
  dateN : Nat
  dir : String
  hash : String
  isMergeCommit : Bool
  parentCommits : List String
deriving DecidableEq, Repr

/-- Per-repository head-commit data the git log oracle returns. -/
structure CommitO where
  dateN : Nat
  hash : String
  parents : List String
deriving DecidableEq, Repr

/-- External world oracle: the package loader output and the per-directory
results of the git invocations the source makes. -/
structure World where
  raw : List RawPackage
  commitOf : String → CommitO
  diffOf : String → String
  unsavedOf : String → String

/-- getLatestCommit of publish.ts over the oracle: a merge commit is one with
more than one parent. -/
def getLatestCommit (w : World) (dir : String) : Commit :=
  let c := w.commitOf dir
  { dateN := c.dateN
    dir := dir
    hash := c.hash
    isMergeCommit := decide (1 < c.parents.length)
    parentCommits := c.parents }

/-- Node path.join for the two-component joins the source performs. -/
def pathJoin (a b : String) : String := a ++ "/" ++ b

/-- getChangesFromCommit of publish.ts: a blank diff output is the fatal
no-changes error, otherwise each output line becomes a repository-relative
changed path. -/
def getChangesFromCommit (w : World) (commit : Commit) : Except Err (List String) :=
  let changes := w.diffOf commit.dir
  if (strTrim changes).data.isEmpty then .error .noChangesDetected
  else .ok ((strSplitChar '\n' changes).map (fun change => pathJoin commit.dir change))

/-- getUnsavedChanges of publish.ts: the trimmed porcelain status, null when
blank. -/
def getUnsavedChanges (w : World) (dir : String) : Option String :=
  let r := strTrim (w.unsavedOf dir)
  if r.data.isEmpty then none else some r

/-- ensureChangedAreSaved of publish.ts, with the special allowance for the
prisma2 cli manifest that changes when engines are downloaded. -/
def ensureChangedAreSaved (w : World) (dir : String) : Except Err Unit :=
  match getUnsavedChanges w dir with
  | none => .ok ()
  | some u =>
    if dir == "prisma2" && u == "M cli/prisma2/package.json" then .ok ()
    else .error (.unsavedChanges dir u)

/-- Array literal of the repository guard of getLatestChanges. -/
def repoArray : List String := ["prisma2", "lift", "photonjs"]

/-- ECMAScript ToBoolean on an array value: every object, an array literal
included, converts to true regardless of its contents. -/
def jsTruthyArray (_a : List String) : Bool :=
  true

/-- Sequential effect traversal over Except, the shape in which the source
awaits a list of fallible git operations: the first failure wins. -/
def exceptMapM {A B : Type} (f : A → Except Err B) : List A → Except Err (List B)
  | [] => .ok []
  | a :: as =>
    match f a with
    | .error e => .error e
    | .ok b =>
      match exceptMapM f as with
      | .error e => .error e
      | .ok bs => .ok (b :: bs)

/-- Unsaved-changes gate of getLatestChanges: unless dirty, every repository
working tree must be clean. -/
def savedGate (w : World) (dirty : Bool) : Except Err Unit :=
  if dirty then .ok ()
  else do
    ensureChangedAreSaved w "prisma2"
    ensureChangedAreSaved w "lift"
    ensureChangedAreSaved w "photonjs"

/-- getLatestChanges of publish.ts: the (ineffective) repository guard, the
unsaved-changes gate unless dirty, then the newest head commit (or the named
repository head) is diffed; with allRepos every head is diffed and the
results concatenated. -/
def getLatestChanges (w : World) (allRepos : Bool) (repo : Option String) (dirty : Bool) :
    Except Err (List String) :=
  if repo.isSome && !(jsTruthyArray repoArray) then .error (.repoNotExist (repo.getD ""))
  else
    match savedGate w dirty with
    | .error e => .error e
    | .ok _ =>
      let commits :=
        match repo with
        | some r => [getLatestCommit w r]
        | none =>
          [getLatestCommit w "prisma2", getLatestCommit w "lift", getLatestCommit w "photonjs"]
      let sorted := sortLe (fun a b => decide (b.dateN ≤ a.dateN)) commits
      if allRepos then
        (exceptMapM (fun c => getChangesFromCommit w c) sorted).map (fun ls => ls.flatten)
      else
        getChangesFromCommit w (sorted.headD (getLatestCommit w "prisma2"))

/-- Release validation block of publish.ts, in source order: syntactic semver
validity of the requested version, the npm query for the current published
prisma2 version (whose comparison requires it to parse), strict semver
greaterness, and the preview0 channel substring. -/
def releaseChecks (r cur : String) : Except Err Unit :=
  if (semverParse r).isNone then .error (.releaseNotSemver r)
  else if (semverParse cur).isNone then .error (.invalidVersion cur)
  else if !(semverGtB r cur) then .error (.releaseNotGreater r cur)
  else if !(strIncludes r "preview0") then .error (.releaseNotPreview r)
  else .ok ()

/-- Pre-flight checks of publish.ts that run before any graph work: the
dry-run/publish conflict, then release validation when a release version was
supplied. -/
def preflight (args : Args) (reg : Registry) : Except Err Unit :=
  if args.dryRun && args.publishFlag then .error .dryRunAndPublish
  else
    match args.release with
    | some r => releaseChecks r reg.prisma2Latest
    | none => .ok ()

/-- Everything the graph and scheduling stages of one run compute, as read by
the execution stages. -/
structure RunPlan where
  changes : List String
  prisma2Version : String
  affected : List ChangedPackage
  order : List (List String)
  didPublish : Bool
  willPublishPackages : Bool
deriving DecidableEq, Repr

/-- Result of a run that did not fail: a utility mode (pull or status) that
bypasses the graph, or a computed plan. -/
inductive Outcome where
  | utility
  | plan (p : RunPlan)
deriving DecidableEq, Repr

/-- Graph, change-detection and scheduling stages of publish.ts, in source
order: build the graph, gate on circular dependencies, resolve the change
set, fix the shared run version, resolve the affected set, and compute the
publish order. -/
def mainStages (args : Args) (reg : Registry) (w : World) : Except Err Outcome :=
  let publish2 := args.publishFlag || args.release.isSome
  let packages := getPackageDependencies w.raw
  let circles := getCircularDependencies packages
  if !circles.isEmpty then .error (.circularDeps circles)
  else
    let dirtyEff := args.dirty || (!publish2 && args.release.isNone && !args.dryRun)
    match getLatestChanges w args.allRepos args.repo dirtyEff with
    | .error e => .error e
    | .ok changes =>
      let prisma2Version :=
        match args.release with
        | some r => r
        | none => getNewPrisma2Version packages reg
      let force := args.release.isSome || args.updateStudio
      let changed := getPackagesAffectedByChange packages changes force prisma2Version
      match getPublishOrder (if args.testAll then packages else changed.map (fun c => c.toPackage)) with
      | none => .error .toposortCycle
      | some order =>
        .ok (.plan
          { changes := changes
            prisma2Version := prisma2Version
            affected := changed
            order := order
            didPublish := publish2
            willPublishPackages := publish2 || args.dryRun })

/-- The publish entry point of publish.ts as a pure pipeline: utility modes
return early, pre-flight checks run before any graph work, then the main
stages. -/
def publishModel (args : Args) (reg : Registry) (w : World) : Except Err Outcome :=
  if args.pullMode then .ok .utility
  else if args.statusMode then .ok .utility
  else
    match preflight args reg with
    | .error e => .error e
    | .ok _ => mainStages args reg w

/-- Per-repository git effect oracle of the commit-and-push stage. -/
structure GitOps where
  pullRes : String → Except Err Unit
  unsavedOf : String → String
  commitRes : String → Except Err Unit
  unpushedOf : String → Nat
  pushRes : String → Except Err Unit

/-- The fixed repository list of the commit-and-push stage. -/
def repoList : List String := ["lift", "photonjs", "prisma2"]

/-- Guarded region of one iteration of the commit-and-push loop of
publishPackages: commit when there are unsaved changes, then push when
commits are unpushed. -/
def innerCommitPush (ops : GitOps) (repo : String) : Except Err Unit := do
  if (strTrim (ops.unsavedOf repo)).data.isEmpty then pure () else ops.commitRes repo
  if ops.unpushedOf repo == 0 then pure () else ops.pushRes repo

/-- One iteration body continued: skip a repository with no released
packages; otherwise pull (outside the guarded region, so a pull failure
propagates), then run the guarded commit/push region, any failure of which is
caught and logged.  The boolean records whether the guarded region was
attempted. -/
def processRepo (ops : GitOps) (changed : List ChangedPackage) (repo : String) :
    Except Err (String × Bool) :=
  let messages := getCommitMessages repo changed
  if 0 < messages.length then
    match ops.pullRes repo with
    | .error e => .error e
    | .ok _ =>
      match innerCommitPush ops repo with
      | .ok _ => .ok (repo, true)
      | .error _ => .ok (repo, true)
  else .ok (repo, false)

/-- Commit-and-push stage of publishPackages over the fixed repository
list. -/
def commitPushStage (ops : GitOps) (changed : List ChangedPackage) :
    Except Err (List (String × Bool)) :=
  exceptMapM (fun repo => processRepo ops changed repo) repoList

/-- Affected set of a successful planned run, empty otherwise; projection
used to state concrete facts about pipeline outcomes. -/
def planAffected : Except Err Outcome → List ChangedPackage
  | .ok (.plan p) => p.affected
  | _ => []

/-- Whether a run finished without a fatal error. -/
def isOkOutcome : Except Err Outcome → Bool
  | .ok _ => true
  | .error _ => false

/-- Fatal error of a failed run, none for a successful one. -/
def errOf : Except Err Outcome → Option Err
  | .error e => some e
  | .ok _ => none

/-- Shared run version of a successful planned run, blank otherwise. -/
def planVersion : Except Err Outcome → String
  | .ok (.plan p) => p.prisma2Version
  | _ => ""

/-- Publish flag of a successful planned run. -/
def planDidPublish : Except Err Outcome → Bool
  | .ok (.plan p) => p.didPublish
  | _ => false

/-- Example workspace: the photon core package, the lift tool depending on
it, and the prisma2 cli depending on both.  Mirrors the three-repository
layout the source globs for. -/
def rawPhotonEx : RawPackage :=
  { path := "photonjs/packages/photon/package.json"
    name := "@prisma/photon"
    version := "2.0.0-alpha.12"
    dependencies := []
    devDependencies := [] }

/-- Example lift manifest, a runtime dependent of photon. -/
def rawLiftEx : RawPackage :=
  { path := "lift/package.json"
    name := "@prisma/lift"
    version := "1.3.4"
    dependencies := ["@prisma/photon"]
    devDependencies := [] }

/-- Example prisma2 cli manifest, a runtime dependent of photon and lift. -/
def rawP2Ex : RawPackage :=
  { path := "prisma2/cli/prisma2/package.json"
    name := "prisma2"
    version := "2.0.0-alpha.12"
    dependencies := ["@prisma/photon", "@prisma/lift"]
    devDependencies := [] }

/-- Example raw workspace. -/
def exampleRaw : List RawPackage := [rawPhotonEx, rawLiftEx, rawP2Ex]

/-- Example built workspace graph. -/
def examplePackages : List Package := getPackageDependencies exampleRaw

/-- Arguments with every flag off, the base the concrete runs modify. -/
def argsBase : Args :=
  { publishFlag := false
    allRepos := false
    repo := none
    dryRun := false
    release := none
    dirty := false
    pullMode := false
    statusMode := false
    testChanged := false
    testAll := false
    updateStudio := false }

/-- Registry oracle of the concrete runs. -/
def regEx : Registry :=
  { prisma2Latest := "2.0.0-preview013"
    prisma2Alpha := "2.0.0-alpha.11"
    photonAlpha := "2.0.0-alpha.11" }

/-- World oracle of the concrete runs: the example workspace, single-parent
head commits, a one-file diff in the lift repository and clean working
trees. -/
def worldEx : World :=
  { raw := exampleRaw
    commitOf := fun dir =>
      if dir == "lift" then { dateN := 5, hash := "b", parents := ["p"] }
      else { dateN := 1, hash := "a", parents := ["q"] }
    diffOf := fun dir => if dir == "lift" then "src/Lift.ts" else "readme.md"
    unsavedOf := fun _ => "" }

/-- World oracle whose diffs are all blank, for the empty-change-set runs. -/
def worldEmptyDiff : World :=
  { raw := exampleRaw
    commitOf := fun _ => { dateN := 1, hash := "a", parents := ["q"] }
    diffOf := fun _ => ""
    unsavedOf := fun _ => "" }

/-- Workspace with a direct two-cycle between two packages, for the cycle
gate runs. -/
def rawCycleA : RawPackage :=
  { path := "photonjs/packages/a/package.json"
    name := "@prisma/a"
    version := "1.0.0"
    dependencies := ["@prisma/b"]
    devDependencies := [] }

/-- Second half of the direct two-cycle. -/
def rawCycleB : RawPackage :=
  { path := "photonjs/packages/b/package.json"
    name := "@prisma/b"
    version := "1.0.0"
    dependencies := ["@prisma/a"]
    devDependencies := [] }

/-- World oracle whose workspace carries the direct two-cycle. -/
def worldCycle : World :=
  { raw := [rawCycleA, rawCycleB]
    commitOf := fun _ => { dateN := 1, hash := "a", parents := ["q"] }
    diffOf := fun _ => "x.ts"
    unsavedOf := fun _ => "" }

/-- Three packages forming a cycle of length three with no mutual pair:
a depends on b, b depends on c, c depends on a. -/
def cyc3 : List Package :=
  [ { name := "@prisma/a", path := "pa/package.json", version := "1.0.0"
      usedBy := ["@prisma/c"], usedByDev := [], uses := ["@prisma/b"], usesDev := [] }
  , { name := "@prisma/b", path := "pb/package.json", version := "1.0.0"
      usedBy := ["@prisma/a"], usedByDev := [], uses := ["@prisma/c"], usesDev := [] }
  , { name := "@prisma/c", path := "pc/package.json", version := "1.0.0"
      usedBy := ["@prisma/b"], usedByDev := [], uses := ["@prisma/a"], usesDev := [] } ]

/-- Lift package with a version that does not parse against the semver
grammar, for the unparsable-version runs. -/
def rawLiftBadVersion : RawPackage :=
  { path := "lift/package.json"
    name := "@prisma/lift"
    version := "v1.2"
    dependencies := ["@prisma/photon"]
    devDependencies := [] }

/-- World oracle carrying the unparsable lift version. -/
def worldBadVersion : World :=
  { raw := [rawPhotonEx, rawLiftBadVersion, rawP2Ex]
    commitOf := fun dir =>
      if dir == "lift" then { dateN := 5, hash := "b", parents := ["p"] }
      else { dateN := 1, hash := "a", parents := ["q"] }
    diffOf := fun dir => if dir == "lift" then "src/Lift.ts" else "readme.md"
    unsavedOf := fun _ => "" }

/-- The built lift package with the unparsable version, as it appears in the
affected set of the bad-version run. -/
def liftPkgBadVersion : Package :=
  { name := "@prisma/lift"
    path := "lift/package.json"
    version := "v1.2"
    usedBy := ["prisma2"]
    usedByDev := []
    uses := ["@prisma/photon"]
    usesDev := [] }

/-- Released lift record whose manifest version and released version differ,
for the commit-message runs. -/
def liftChangedEx : ChangedPackage :=
  { name := "@prisma/lift"
    path := "lift/package.json"
    version := "1.0.0"
    usedBy := ["prisma2"]
    usedByDev := []
    uses := ["@prisma/photon"]
    usesDev := []
    newVersion := some "1.0.1" }

/-- Workspace whose anchor manifests both carry the alpha counter zero. -/
def rawsAlphaZero : List RawPackage :=
  [ { rawPhotonEx with version := "2.0.0-alpha.0" }
  , rawLiftEx
  , { rawP2Ex with version := "2.0.0-alpha.0" } ]

/-- Registry whose published alpha versions also carry the counter zero. -/
def regAlphaZero : Registry :=
  { prisma2Latest := "2.0.0-preview013"
    prisma2Alpha := "2.0.0-alpha.0"
    photonAlpha := "2.0.0-alpha.0" }

/-- Git oracle whose commit and push invocations both fail in every
repository while pulls succeed, for the best-effort runs. -/
def opsFailing : GitOps :=
  { pullRes := fun _ => .ok ()
    unsavedOf := fun _ => "M x"
    commitRes := fun r => .error (.unsavedChanges r "commit failed")
    unpushedOf := fun _ => 1
    pushRes := fun r => .error (.unsavedChanges r "push failed") }

theorem mem_stepNew {α : Type} [DecidableEq α] (adj : α → List α) (s : List α) (x : α) :
    x ∈ stepNew adj s ↔ (∃ p ∈ s, x ∈ adj p) ∧ x ∉ s := by
  simp [stepNew, List.mem_dedup, List.mem_filter, List.mem_flatten, List.mem_map]
  aesop

theorem subset_closureAux {α : Type} [DecidableEq α] (adj : α → List α) :
    ∀ (fuel : Nat) (s : List α) (x : α), x ∈ s → x ∈ closureAux adj fuel s := by
  intro fuel
  induction fuel with
  | zero => intro s x hx; simpa [closureAux] using hx
  | succ n ih =>
    intro s x hx
    simp only [closureAux]
    split
    · exact hx
    · exact ih _ x (List.mem_append_left _ hx)

theorem closureAux_sound {α : Type} [DecidableEq α] (adj : α → List α) :
    ∀ (fuel : Nat) (s : List α) (x : α), x ∈ closureAux adj fuel s →
      ∃ a ∈ s, Relation.ReflTransGen (adjRel adj) a x := by
  intro fuel
  induction fuel with
  | zero =>
    intro s x hx
    exact ⟨x, by simpa [closureAux] using hx, Relation.ReflTransGen.refl⟩
  | succ n ih =>
    intro s x hx
    simp only [closureAux] at hx
    split at hx
    · exact ⟨x, hx, Relation.ReflTransGen.refl⟩
    · obtain ⟨a, ha, hrtg⟩ := ih _ x hx
      rcases List.mem_append.mp ha with h | h
      · exact ⟨a, h, hrtg⟩
      · obtain ⟨⟨p, hp, hpa⟩, -⟩ := (mem_stepNew adj s a).mp h
        exact ⟨p, hp, Relation.ReflTransGen.head (show adjRel adj p a from hpa) hrtg⟩

theorem closureAux_closed {α : Type} [DecidableEq α] (adj : α → List α) (B : List α)
    (hB : IsClosedAdj adj B) :
    ∀ (fuel : Nat) (s : List α), (∀ x ∈ s, x ∈ B) →
      B.toFinset.card ≤ fuel + s.toFinset.card →
      (∀ x ∈ closureAux adj fuel s, x ∈ B) ∧ IsClosedAdj adj (closureAux adj fuel s) := by
  intro fuel
  induction fuel with
  | zero =>
    intro s hsB hcard
    have hsub : s.toFinset ⊆ B.toFinset := by
      intro x hx
      simp only [List.mem_toFinset] at hx ⊢
      exact hsB x hx
    have heq : B.toFinset = s.toFinset :=
      (Finset.eq_of_subset_of_card_le hsub (by simpa using hcard)).symm
    constructor
    · intro x hx; exact hsB x (by simpa [closureAux] using hx)
    · intro x hx q hq
      simp only [closureAux] at hx ⊢
      have hqB : q ∈ B := hB x (hsB x hx) q hq
      have : q ∈ s.toFinset := heq ▸ List.mem_toFinset.mpr hqB
      exact List.mem_toFinset.mp this
  | succ n ih =>
    intro s hsB hcard
    simp only [closureAux]
    by_cases hempty : (stepNew adj s).isEmpty
    · rw [if_pos hempty]
      refine ⟨hsB, ?_⟩
      intro x hx q hq
      by_contra hqs
      have hmem : q ∈ stepNew adj s := (mem_stepNew adj s q).mpr ⟨⟨x, hx, hq⟩, hqs⟩
      rw [List.isEmpty_iff] at hempty
      simp [hempty] at hmem
    · rw [if_neg hempty]
      have hnewB : ∀ x ∈ stepNew adj s, x ∈ B := by
        intro x hx
        obtain ⟨⟨p, hp, hpa⟩, -⟩ := (mem_stepNew adj s x).mp hx
        exact hB p (hsB p hp) x hpa
      have hsB' : ∀ x ∈ s ++ stepNew adj s, x ∈ B := by
        intro x hx
        rcases List.mem_append.mp hx with h | h
        · exact hsB x h
        · exact hnewB x h
      have hsubset : s.toFinset ⊆ (s ++ stepNew adj s).toFinset := by
        intro z hz
        simp only [List.toFinset_append, Finset.mem_union]
        exact Or.inl hz
      obtain ⟨y, hy⟩ :=
        List.exists_mem_of_ne_nil _ (by simpa [List.isEmpty_iff] using hempty)
      have hynots : y ∉ s := ((mem_stepNew adj s y).mp hy).2
      have hstrict : s.toFinset ⊂ (s ++ stepNew adj s).toFinset := by
        rw [Finset.ssubset_iff_of_subset hsubset]
        refine ⟨y, ?_, ?_⟩
        · simp only [List.toFinset_append, Finset.mem_union, List.mem_toFinset]
          exact Or.inr hy
        · simpa [List.mem_toFinset] using hynots
      have hcard' : B.toFinset.card ≤ n + (s ++ stepNew adj s).toFinset.card := by
        have h1 : s.toFinset.card < (s ++ stepNew adj s).toFinset.card :=
          Finset.card_lt_card hstrict
        omega
      exact ih _ hsB' hcard'

theorem rtg_mem_of_closed {α : Type} (adj : α → List α) (c : List α)
    (hc : IsClosedAdj adj c) {a x : α} (ha : a ∈ c)
    (h : Relation.ReflTransGen (adjRel adj) a x) : x ∈ c := by
  induction h with
  | refl => exact ha
  | tail _ hbc ih => exact hc _ ih _ hbc

theorem mem_closureAux_iff {α : Type} [DecidableEq α] (adj : α → List α) (B : List α)
    (hB : IsClosedAdj adj B) (fuel : Nat) (s : List α) (hsB : ∀ x ∈ s, x ∈ B)
    (hcard : B.toFinset.card ≤ fuel + s.toFinset.card) (x : α) :
    x ∈ closureAux adj fuel s ↔ ∃ a ∈ s, Relation.ReflTransGen (adjRel adj) a x := by
  constructor
  · exact closureAux_sound adj fuel s x
  · rintro ⟨a, ha, hrtg⟩
    exact rtg_mem_of_closed adj _ ((closureAux_closed adj B hB fuel s hsB hcard).2)
      (subset_closureAux adj fuel s a ha) hrtg

theorem seedNames_subset (packages : List Package) (changes : List String) (force : Bool) :
    ∀ x ∈ seedNames packages changes force, x ∈ pkgNames packages := by
  intro x hx
  unfold seedNames at hx
  split at hx <;>
  · obtain ⟨p, hp, rfl⟩ := List.mem_map.mp hx
    exact List.mem_map.mpr ⟨p, (List.mem_filter.mp hp).1, rfl⟩

theorem photon_mem_seedWithAnchor (packages : List Package) (changes : List String)
    (force : Bool) : "@prisma/photon" ∈ seedWithAnchor packages changes force := by
  simp only [seedWithAnchor]
  split
  case isTrue h => exact h
  case isFalse _ => exact List.mem_append_right _ (by simp)

theorem seedWithAnchor_subset (packages : List Package) (changes : List String) (force : Bool)
    (hphoton : "@prisma/photon" ∈ pkgNames packages) :
    ∀ x ∈ seedWithAnchor packages changes force, x ∈ pkgNames packages := by
  intro x hx
  simp only [seedWithAnchor] at hx
  split at hx
  · exact seedNames_subset packages changes force x hx
  · rcases List.mem_append.mp hx with h | h
    · exact seedNames_subset packages changes force x h
    · simp only [List.mem_singleton] at h
      exact h ▸ hphoton

theorem pkgAdj_closed (packages : List Package)
    (hclosed : ∀ p ∈ packages, ∀ q ∈ p.usedBy ++ p.usedByDev, q ∈ pkgNames packages) :
    IsClosedAdj (pkgAdj packages) (pkgNames packages) := by
  intro x _ q hq
  unfold pkgAdj lookupPkg at hq
  cases hfind : packages.find? (fun p => p.name == x) with
  | none => rw [hfind] at hq; simp at hq
  | some p =>
    rw [hfind] at hq
    exact hclosed p (List.mem_of_find?_eq_some hfind) q hq

theorem names_card_le (packages : List Package) :
    (pkgNames packages).toFinset.card ≤ packages.length := by
  have h1 := List.toFinset_card_le (pkgNames packages)
  have h2 : (pkgNames packages).length = packages.length := List.length_map _ _
  omega

theorem lookupPkg_of_mem_names (packages : List Package) (n : String)
    (hn : n ∈ pkgNames packages) :
    ∃ q, lookupPkg packages n = some q ∧ q.name = n := by
  unfold lookupPkg
  obtain ⟨p, hp, rfl⟩ := List.mem_map.mp hn
  cases hfind : packages.find? (fun q => q.name == p.name) with
  | none =>
    have := List.find?_eq_none.mp hfind p hp
    simp at this
  | some q =>
    exact ⟨q, rfl, by simpa using List.find?_some hfind⟩

theorem affected_filterMap_names (packages : List Package) (prisma2Version : String)
    (l : List String) (hl : ∀ n ∈ l, n ∈ pkgNames packages) :
    (l.filterMap (fun n => (lookupPkg packages n).map (fun p =>
        ({ toPackage := p, newVersion := newVersionOf p prisma2Version } : ChangedPackage)))).map
      (fun c => c.name) = l := by
  induction l with
  | nil => simp
  | cons a as ih =>
    obtain ⟨q, hq, hqn⟩ := lookupPkg_of_mem_names packages a (hl a (by simp))
    have has : ∀ n ∈ as, n ∈ pkgNames packages := fun n hn => hl n (List.mem_cons_of_mem _ hn)
    simp [List.filterMap_cons, hq, hqn, ih has]

theorem affectedNames_subset (packages : List Package) (changes : List String) (force : Bool)
    (hclosed : ∀ p ∈ packages, ∀ q ∈ p.usedBy ++ p.usedByDev, q ∈ pkgNames packages)
    (hphoton : "@prisma/photon" ∈ pkgNames packages) :
    ∀ n ∈ affectedNames packages changes force, n ∈ pkgNames packages := by
  have hcard : (pkgNames packages).toFinset.card ≤
      packages.length + (seedWithAnchor packages changes force).toFinset.card := by
    have := names_card_le packages
    omega
  exact (closureAux_closed (pkgAdj packages) (pkgNames packages) (pkgAdj_closed packages hclosed)
    packages.length (seedWithAnchor packages changes force)
    (seedWithAnchor_subset packages changes force hphoton) hcard).1

/-- C1: for every built package graph, change list and forced anchor-only
flag, the names of the affected set computed by getPackagesAffectedByChange
are exactly the reverse-dependency reachability closure (over the usedBy and
usedByDev edges) of the seed set — the packages whose manifest directory is a
prefix of some changed path, or the anchor pair when forced, with the
@prisma/photon anchor always added — and the @prisma/photon anchor is always
a member of the result. -/
theorem affected_set_eq_reverse_closure (packages : List Package) (changes : List String)
    (force : Bool) (prisma2Version : String)
    (hclosed : ∀ p ∈ packages, ∀ q ∈ p.usedBy ++ p.usedByDev, q ∈ pkgNames packages)
    (hphoton : "@prisma/photon" ∈ pkgNames packages) :
    (∀ n, n ∈ (getPackagesAffectedByChange packages changes force prisma2Version).map
          (fun c => c.name) ↔
        ∃ s ∈ seedWithAnchor packages changes force,
          Relation.ReflTransGen (adjRel (pkgAdj packages)) s n) ∧
      "@prisma/photon" ∈ (getPackagesAffectedByChange packages changes force
          prisma2Version).map (fun c => c.name) := by
  have hmap : (getPackagesAffectedByChange packages changes force prisma2Version).map
      (fun c => c.name) = affectedNames packages changes force :=
    affected_filterMap_names packages prisma2Version _
      (affectedNames_subset packages changes force hclosed hphoton)
  have hcard : (pkgNames packages).toFinset.card ≤
      packages.length + (seedWithAnchor packages changes force).toFinset.card := by
    have := names_card_le packages
    omega
  constructor
  · intro n
    rw [hmap]
    exact mem_closureAux_iff (pkgAdj packages) (pkgNames packages)
      (pkgAdj_closed packages hclosed) packages.length
      (seedWithAnchor packages changes force)
      (seedWithAnchor_subset packages changes force hphoton) hcard n
  · rw [hmap]
    exact subset_closureAux (pkgAdj packages) packages.length _ _
      (photon_mem_seedWithAnchor packages changes force)

/-- Witness for C1: the closure equivalence holds on the example workspace
with a change under the lift directory and no forcing. -/
theorem affected_set_eq_reverse_closure_witness :
    (∀ n, n ∈ (getPackagesAffectedByChange examplePackages ["lift/src/Lift.ts"] false
          "2.0.0-alpha.13").map (fun c => c.name) ↔
        ∃ s ∈ seedWithAnchor examplePackages ["lift/src/Lift.ts"] false,
          Relation.ReflTransGen (adjRel (pkgAdj examplePackages)) s n) ∧
      "@prisma/photon" ∈ (getPackagesAffectedByChange examplePackages ["lift/src/Lift.ts"]
          false "2.0.0-alpha.13").map (fun c => c.name) :=
  affected_set_eq_reverse_closure examplePackages ["lift/src/Lift.ts"] false "2.0.0-alpha.13"
    (by decide) (by decide)

theorem mem_intersection (arr1 arr2 : List String) (q : String) :
    q ∈ intersection arr1 arr2 ↔ q ∈ arr1 ∧ q ∈ arr2 := by
  simp [intersection, List.mem_filter, List.elem_iff, List.contains]

theorem circular_nonempty_iff (packages : List Package) :
    getCircularDependencies packages ≠ [] ↔
      ∃ p ∈ packages, ∃ q, (q ∈ p.uses ∨ q ∈ p.usesDev) ∧ (q ∈ p.usedBy ∨ q ∈ p.usedByDev) := by
  constructor
  · intro h
    obtain ⟨c, hc⟩ := List.exists_mem_of_ne_nil _ h
    have hc' := List.mem_filter.mp hc
    obtain ⟨p, hp, rfl⟩ := List.mem_map.mp hc'.1
    have hne : intersection (p.uses ++ p.usesDev) (p.usedBy ++ p.usedByDev) ≠ [] := by
      intro hnil
      rw [hnil] at hc'
      simp at hc'
    obtain ⟨q, hq⟩ := List.exists_mem_of_ne_nil _ hne
    have hq' := (mem_intersection _ _ q).mp hq
    exact ⟨p, hp, q, List.mem_append.mp hq'.1, List.mem_append.mp hq'.2⟩
  · rintro ⟨p, hp, q, h1, h2⟩
    have hq : q ∈ intersection (p.uses ++ p.usesDev) (p.usedBy ++ p.usedByDev) :=
      (mem_intersection _ _ q).mpr ⟨List.mem_append.mpr h1, List.mem_append.mpr h2⟩
    have hne : intersection (p.uses ++ p.usesDev) (p.usedBy ++ p.usedByDev) ≠ [] :=
      List.ne_nil_of_mem hq
    have hmem : intersection (p.uses ++ p.usesDev) (p.usedBy ++ p.usedByDev) ∈
        getCircularDependencies packages := by
      refine List.mem_filter.mpr ⟨List.mem_map.mpr ⟨p, hp, rfl⟩, ?_⟩
      simpa [List.isEmpty_iff] using hne
    exact List.ne_nil_of_mem hmem

theorem circles_abort (args : Args) (reg : Registry) (w : World)
    (h1 : args.pullMode = false) (h2 : args.statusMode = false)
    (h3 : preflight args reg = .ok ())
    (h4 : getCircularDependencies (getPackageDependencies w.raw) ≠ []) :
    publishModel args reg w =
      .error (.circularDeps (getCircularDependencies (getPackageDependencies w.raw))) := by
  have hne : (getCircularDependencies (getPackageDependencies w.raw)).isEmpty = false := by
    simpa [List.isEmpty_iff] using h4
  simp only [publishModel, h1, h2, h3, Bool.false_eq_true, if_false]
  simp only [mainStages, hne, Bool.not_false, if_true]

/-- C3: getCircularDependencies returns a non-empty witness list exactly when
some package has a direct 2-cycle partner (a name occurring both among its
uses or usesDev and among its usedBy or usedByDev); a non-empty result makes
the run abort with the circular-dependencies error before change resolution,
scheduling or any mutation; and a three-cycle with no mutual pair yields an
empty result, escaping this check. -/
theorem circular_dependency_detection :
    (∀ packages : List Package, getCircularDependencies packages ≠ [] ↔
        ∃ p ∈ packages, ∃ q, (q ∈ p.uses ∨ q ∈ p.usesDev) ∧
          (q ∈ p.usedBy ∨ q ∈ p.usedByDev)) ∧
    (∀ (args : Args) (reg : Registry) (w : World),
        args.pullMode = false → args.statusMode = false → preflight args reg = .ok () →
        getCircularDependencies (getPackageDependencies w.raw) ≠ [] →
        publishModel args reg w =
          .error (.circularDeps (getCircularDependencies (getPackageDependencies w.raw)))) ∧
    getCircularDependencies cyc3 = [] :=
  ⟨circular_nonempty_iff, circles_abort, by decide⟩

/-- Witness for C3: on the workspace with the direct two-cycle between
@prisma/a and @prisma/b, the run aborts with the circular-dependencies
error. -/
theorem circular_dependency_detection_witness :
    publishModel argsBase regEx worldCycle =
      .error (.circularDeps (getCircularDependencies (getPackageDependencies worldCycle.raw))) :=
  circular_dependency_detection.2.1 argsBase regEx worldCycle (by decide) (by decide)
    (by rfl) (by decide)

theorem ensure_err_shape (w : World) (d : String) (e : Err)
    (h : ensureChangedAreSaved w d = .error e) : ∃ dd u, e = .unsavedChanges dd u := by
  unfold ensureChangedAreSaved at h
  cases hg : getUnsavedChanges w d with
  | none => simp only [hg] at h; simp at h
  | some u =>
    simp only [hg] at h
    split at h
    · simp at h
    · injection h with h'
      exact ⟨d, u, h'.symm⟩

theorem savedGate_err_shape (w : World) (dirty : Bool) (e : Err)
    (h : savedGate w dirty = .error e) : ∃ dd u, e = .unsavedChanges dd u := by
  unfold savedGate at h
  split at h
  · simp at h
  · cases h1 : ensureChangedAreSaved w "prisma2" with
    | error e1 =>
      simp only [h1, bind, Except.bind] at h
      injection h with h'
      exact h' ▸ ensure_err_shape w "prisma2" e1 h1
    | ok _ =>
      simp only [h1, bind, Except.bind] at h
      cases h2 : ensureChangedAreSaved w "lift" with
      | error e2 =>
        simp only [h2, bind, Except.bind] at h
        injection h with h'
        exact h' ▸ ensure_err_shape w "lift" e2 h2
      | ok _ =>
        simp only [h2, bind, Except.bind] at h
        cases h3 : ensureChangedAreSaved w "photonjs" with
        | error e3 =>
          simp only [h3] at h
          injection h with h'
          exact h' ▸ ensure_err_shape w "photonjs" e3 h3
        | ok _ => simp only [h3] at h; simp at h

theorem getChangesFromCommit_err_shape (w : World) (c : Commit) (e : Err)
    (h : getChangesFromCommit w c = .error e) : e = .noChangesDetected := by
  simp only [getChangesFromCommit] at h
  split at h
  · injection h with h'
    exact h'.symm
  · simp at h

theorem exceptMapM_err {A B : Type} (f : A → Except Err B) :
    ∀ (l : List A) (e : Err), exceptMapM f l = .error e → ∃ a ∈ l, f a = .error e := by
  intro l
  induction l with
  | nil => intro e h; simp [exceptMapM] at h
  | cons a as ih =>
    intro e h
    unfold exceptMapM at h
    cases hf : f a with
    | error e1 =>
      rw [hf] at h
      injection h with h'
      exact ⟨a, by simp, h' ▸ hf⟩
    | ok b =>
      rw [hf] at h
      cases hm : exceptMapM f as with
      | error e2 =>
        rw [hm] at h
        injection h with h'
        obtain ⟨x, hx, hfx⟩ := ih e2 hm
        exact ⟨x, List.mem_cons_of_mem _ hx, h' ▸ hfx⟩
      | ok bs => rw [hm] at h; simp at h

theorem exceptMap_err {A B : Type} (g : A → B) (x : Except Err A) (e : Err)
    (h : x.map g = .error e) : x = .error e := by
  cases x with
  | error a => simpa [Except.map] using h
  | ok v => simp [Except.map] at h

theorem getLatestChanges_err_shape (w : World) (allRepos : Bool) (repo : Option String)
    (dirty : Bool) (e : Err) (h : getLatestChanges w allRepos repo dirty = .error e) :
    e = .noChangesDetected ∨ ∃ d u, e = .unsavedChanges d u := by
  unfold getLatestChanges at h
  have hguard : ¬ ((repo.isSome && !(jsTruthyArray repoArray)) = true) := by
    simp [jsTruthyArray]
  rw [if_neg hguard] at h
  cases hs : savedGate w dirty with
  | error e1 =>
    simp only [hs] at h
    injection h with h'
    exact Or.inr (h' ▸ savedGate_err_shape w dirty e1 hs)
  | ok _ =>
    simp only [hs] at h
    split at h
    · obtain ⟨c, _, hc⟩ := exceptMapM_err _ _ _ (exceptMap_err _ _ _ h)
      exact Or.inl (getChangesFromCommit_err_shape w c e hc)
    · exact Or.inl (getChangesFromCommit_err_shape w _ e h)

/-- C10: the repository guard of getLatestChanges negates the truthiness of a
constant non-empty array literal instead of testing membership, so the
provided-repo-does-not-exist rejection is unreachable and every repository
name, recognized or not, passes the guard: no run of getLatestChanges returns
that error. -/
theorem repo_guard_unreachable (w : World) (allRepos : Bool) (repo : Option String)
    (dirty : Bool) (s : String) :
    getLatestChanges w allRepos repo dirty ≠ .error (.repoNotExist s) := by
  intro h
  rcases getLatestChanges_err_shape w allRepos repo dirty _ h with h1 | ⟨d, u, h1⟩ <;>
    simp at h1

theorem processRepo_ok (ops : GitOps) (changed : List ChangedPackage) (r : String)
    (hpull : ops.pullRes r = .ok ()) :
    processRepo ops changed r =
      .ok (r, decide (0 < (getCommitMessages r changed).length)) := by
  simp only [processRepo]
  by_cases hc : 0 < (getCommitMessages r changed).length
  · rw [if_pos hc, hpull]
    cases hi : innerCommitPush ops r <;> simp [hc]
  · rw [if_neg hc]
    simp [hc]

/-- C8: during the commit-and-push stage, a failure raised inside the guarded
commit/push region of one repository is caught and does not prevent the
processing of every subsequent repository of the fixed list, nor does it turn
the stage outcome into a failure: whenever the pulls succeed, the stage
returns success and records, for each of the three repositories in order,
that its commit/push region was attempted exactly when it had released
packages — whatever the commit and push oracles do. -/
theorem commit_push_best_effort (ops : GitOps) (changed : List ChangedPackage)
    (hpull : ∀ r, ops.pullRes r = .ok ()) :
    commitPushStage ops changed =
      .ok (repoList.map (fun r => (r, decide (0 < (getCommitMessages r changed).length)))) := by
  simp only [commitPushStage, repoList, exceptMapM,
    processRepo_ok ops changed "lift" (hpull "lift"),
    processRepo_ok ops changed "photonjs" (hpull "photonjs"),
    processRepo_ok ops changed "prisma2" (hpull "prisma2"), List.map]

/-- Witness for C8: with the oracle whose commit and push both fail in every
repository while pulls succeed, and one released lift package, the stage
still succeeds and attempts exactly the lift repository. -/
theorem commit_push_best_effort_witness :
    commitPushStage opsFailing [liftChangedEx] =
      .ok (repoList.map (fun r =>
        (r, decide (0 < (getCommitMessages r [liftChangedEx]).length)))) :=
  commit_push_best_effort opsFailing [liftChangedEx] (fun _ => rfl)

theorem insertLe_perm {α : Type} (le : α → α → Bool) (x : α) :
    ∀ l : List α, (insertLe le x l).Perm (x :: l) := by
  intro l
  induction l with
  | nil => exact List.Perm.refl _
  | cons y ys ih =>
    simp only [insertLe]
    split
    · exact List.Perm.refl _
    · exact (List.Perm.cons y ih).trans (List.Perm.swap x y ys)

theorem sortLe_perm {α : Type} (le : α → α → Bool) :
    ∀ l : List α, (sortLe le l).Perm l := by
  intro l
  induction l with
  | nil => exact List.Perm.refl _
  | cons x xs ih =>
    exact (insertLe_perm le x (sortLe le xs)).trans (List.Perm.cons x ih)

theorem insertLe_pairwise {α : Type} (le : α → α → Bool)
    (htrans : ∀ a b c, le a b = true → le b c = true → le a c = true) (x : α) :
    ∀ l : List α, (∀ b ∈ l, le x b = true ∨ le b x = true) →
      l.Pairwise (fun a b => le a b = true) →
      (insertLe le x l).Pairwise (fun a b => le a b = true) := by
  intro l
  induction l with
  | nil => intro _ _; simp [insertLe]
  | cons y ys ih =>
    intro htot hl
    rcases List.pairwise_cons.mp hl with ⟨hy, hys⟩
    simp only [insertLe]
    split
    case isTrue hxy =>
      refine List.pairwise_cons.mpr ⟨?_, hl⟩
      intro b hb
      rcases List.mem_cons.mp hb with rfl | hb2
      · exact hxy
      · exact htrans x y b hxy (hy b hb2)
    case isFalse hxy =>
      refine List.pairwise_cons.mpr ⟨?_, ?_⟩
      · intro b hb
        have hb2 : b ∈ x :: ys := (insertLe_perm le x ys).mem_iff.mp hb
        rcases List.mem_cons.mp hb2 with heq | hb3
        · subst heq
          rcases htot y (by simp) with h | h
          · exact absurd h hxy
          · exact h
        · exact hy b hb3
      · exact ih (fun b hb => htot b (List.mem_cons_of_mem _ hb)) hys

theorem sortLe_pairwise {α : Type} (le : α → α → Bool)
    (htrans : ∀ a b c, le a b = true → le b c = true → le a c = true) :
    ∀ l : List α, l.Pairwise (fun a b => le a b = true ∨ le b a = true) →
      (sortLe le l).Pairwise (fun a b => le a b = true) := by
  intro l
  induction l with
  | nil => intro _; simp [sortLe]
  | cons x xs ih =>
    intro hP
    rcases List.pairwise_cons.mp hP with ⟨hx, hxs⟩
    refine insertLe_pairwise le htrans x (sortLe le xs) ?_ (ih hxs)
    intro b hb
    exact hx b ((sortLe_perm le xs).mem_iff.mp hb)

theorem nameLe_trans (a b c : String) (h1 : nameLe a b = true) (h2 : nameLe b c = true) :
    nameLe a c = true := by
  unfold nameLe at *
  by_cases ha : isAnchorName a = true
  · simp [ha]
  · by_cases hb : isAnchorName b = true
    · simp [ha, hb] at h1
    · by_cases hc : isAnchorName c = true
      · simp [hb, hc] at h2
      · simp [ha, hb, hc] at h1 h2 ⊢
        exact lt_trans h1 h2

theorem nameLe_total_of_ne (a b : String) (h : a ≠ b) :
    nameLe a b = true ∨ nameLe b a = true := by
  unfold nameLe
  by_cases ha : isAnchorName a = true
  · simp [ha]
  · by_cases hb : isAnchorName b = true
    · simp [ha, hb]
    · rcases lt_or_gt_of_ne h with hl | hl <;> simp [ha, hb, hl, le_of_lt]

/-- C9 amended: for every repository directory and released set with unique
package names, getCommitMessages renders one name@version entry per released
package whose manifest path lies under the directory — using the version
field of the package record, which still holds the pre-release manifest
version, not the released newVersion — ordered so that the two anchor
packages come before all others and the remaining packages are in ascending
name order. -/
theorem commit_messages_order_and_content (dir : String) (pkgs : List ChangedPackage)
    (hnd : (pkgs.map (fun p => p.name)).Nodup) :
    ∃ l : List ChangedPackage,
      getCommitMessages dir pkgs = l.map (fun p => p.name ++ "@" ++ p.version) ∧
      l.Perm (pkgs.filter (fun p => strStartsWith p.path dir)) ∧
      l.Pairwise (fun a b => isAnchorName a.name = true ∨
        (isAnchorName b.name = false ∧ a.name < b.name)) := by
  refine ⟨_, rfl, ?_, ?_⟩
  · exact (sortLe_perm _ pkgs).filter _
  · have hP : pkgs.Pairwise (fun a b =>
        nameLe a.name b.name = true ∨ nameLe b.name a.name = true) := by
      have hne : pkgs.Pairwise (fun a b => a.name ≠ b.name) :=
        List.pairwise_map.mp hnd
      exact hne.imp (fun h => nameLe_total_of_ne _ _ h)
    have hsorted := sortLe_pairwise (fun a b => nameLe a.name b.name)
      (fun a b c h1 h2 => nameLe_trans a.name b.name c.name h1 h2) pkgs hP
    have himp : ∀ a b : ChangedPackage, nameLe a.name b.name = true →
        isAnchorName a.name = true ∨ (isAnchorName b.name = false ∧ a.name < b.name) := by
      intro a b h
      unfold nameLe at h
      by_cases ha : isAnchorName a.name = true
      · exact Or.inl ha
      · by_cases hb : isAnchorName b.name = true
        · simp [ha, hb] at h
        · simp only [ha, hb, if_false] at h
          exact Or.inr ⟨by simpa using hb, by simpa using h⟩
    exact (hsorted.imp (fun h => himp _ _ h)).sublist (List.filter_sublist _)

/-- Witness for C9 amended: the properties instantiated on one released lift
package. -/
theorem commit_messages_order_and_content_witness :
    ∃ l : List ChangedPackage,
      getCommitMessages "lift" [liftChangedEx] = l.map (fun p => p.name ++ "@" ++ p.version) ∧
      l.Perm ([liftChangedEx].filter (fun p => strStartsWith p.path "lift")) ∧
      l.Pairwise (fun a b => isAnchorName a.name = true ∨
        (isAnchorName b.name = false ∧ a.name < b.name)) :=
  commit_messages_order_and_content "lift" [liftChangedEx] (by decide)

/-- Counterexample for C9: the entry rendered for a released package carries
the pre-release manifest version, not the released version recorded in
newVersion. -/
theorem commit_messages_version_cex :
    liftChangedEx.newVersion = some "1.0.1" ∧
      getCommitMessages "lift" [liftChangedEx] = ["@prisma/lift@1.0.0"] ∧
      getCommitMessages "lift" [liftChangedEx] ≠ ["@prisma/lift@1.0.1"] := by
  refine ⟨rfl, by decide, by decide⟩

theorem splitFirst_not_mem (c : Char) :
    ∀ l : List Char, c ∉ l → splitFirst c l = (l, none) := by
  intro l
  induction l with
  | nil => intro _; rfl
  | cons x xs ih =>
    intro h
    have hx : ¬ (x = c) := by
      intro heq
      exact h (by rw [← heq]; exact List.Mem.head xs)
    simp [splitFirst, hx, ih (fun hc => h (List.mem_cons_of_mem _ hc))]

theorem splitFirst_append (c : Char) :
    ∀ (l1 l2 : List Char), c ∉ l1 → splitFirst c (l1 ++ c :: l2) = (l1, some l2) := by
  intro l1
  induction l1 with
  | nil => intro l2 _; simp [splitFirst]
  | cons x xs ih =>
    intro l2 h
    have hx : ¬ (x = c) := by
      intro heq
      exact h (by rw [← heq]; exact List.Mem.head xs)
    simp [splitFirst, hx, ih l2 (fun hc => h (List.mem_cons_of_mem _ hc))]

theorem patchVersion_core (l : List Char) (mj mn pt : Nat)
    (hp : parseMMP l = some (mj, mn, pt)) (h1 : '+' ∉ l) (h2 : '-' ∉ l) :
    patchVersion (String.mk l) =
      some (toString mj ++ "." ++ toString mn ++ "." ++ toString (pt + 1)) := by
  simp [patchVersion, splitFirst_not_mem '+' l h1, splitFirst_not_mem '-' l h2, hp]

theorem patchVersion_drops_prerelease (core pre : List Char)
    (h1 : '+' ∉ core) (h2 : '-' ∉ core) (h3 : '+' ∉ pre)
    (hpre : (splitAll '.' pre).all preIdOk = true) :
    patchVersion (String.mk (core ++ '-' :: pre)) = patchVersion (String.mk core) := by
  have hplus : '+' ∉ core ++ '-' :: pre := by
    intro hmem
    rcases List.mem_append.mp hmem with h | h
    · exact h1 h
    · rcases List.mem_cons.mp h with h | h
      · exact absurd h (by decide)
      · exact h3 h
  simp only [patchVersion, splitFirst_not_mem '+' _ hplus,
    splitFirst_append '-' core pre h2, splitFirst_not_mem '+' core h1,
    splitFirst_not_mem '-' core h2, hpre]

theorem patchVersion_drops_build (s bld : List Char) (h1 : '+' ∉ s) (_h3 : '+' ∉ bld)
    (hbld : (splitAll '.' bld).all buildIdOk = true) :
    patchVersion (String.mk (s ++ '+' :: bld)) = patchVersion (String.mk s) := by
  simp only [patchVersion, splitFirst_append '+' s bld h1, splitFirst_not_mem '+' s h1, hbld]

/-- C4 amended: for every non-anchor package, version derivation parses the
current version against the major.minor.patch[-prerelease][+build] grammar
and, when it parses, returns major.minor.(patch+1) with any prerelease and
build metadata dropped; when the current version does not parse, patchVersion
returns null, patch propagates the null, and the run carries the null
newVersion forward without a fatal error. -/
theorem patch_version_behavior :
    patchVersion "1.2.3" = some "1.2.4" ∧
    patchVersion "1.2.3-alpha.5" = some "1.2.4" ∧
    patchVersion "v1.2" = none ∧
    (∀ pkg : Package, patch pkg = patchVersion pkg.version) ∧
    (∀ (l : List Char) (mj mn pt : Nat), parseMMP l = some (mj, mn, pt) →
      '+' ∉ l → '-' ∉ l →
      patchVersion (String.mk l) =
        some (toString mj ++ "." ++ toString mn ++ "." ++ toString (pt + 1))) ∧
    (∀ core pre : List Char, '+' ∉ core → '-' ∉ core → '+' ∉ pre →
      (splitAll '.' pre).all preIdOk = true →
      patchVersion (String.mk (core ++ '-' :: pre)) = patchVersion (String.mk core)) ∧
    (∀ s bld : List Char, '+' ∉ s → '+' ∉ bld →
      (splitAll '.' bld).all buildIdOk = true →
      patchVersion (String.mk (s ++ '+' :: bld)) = patchVersion (String.mk s)) :=
  ⟨by decide, by decide, by decide, fun _ => rfl,
    patchVersion_core, patchVersion_drops_prerelease, patchVersion_drops_build⟩

/-- Witness for C4 amended: the metadata-drop components applied at concrete
inputs — dropping the prerelease alpha.5 and the build meta.7 from 1.2.3
leaves the bump of the bare core. -/
theorem patch_version_behavior_witness :
    patchVersion (String.mk ("1.2.3".data ++ '-' :: "alpha.5".data)) =
        patchVersion (String.mk "1.2.3".data) ∧
      patchVersion (String.mk ("1.2.3".data ++ '+' :: "meta.7".data)) =
        patchVersion (String.mk "1.2.3".data) ∧
      patchVersion (String.mk "1.2.3".data) = some "1.2.4" :=
  ⟨patch_version_behavior.2.2.2.2.2.1 "1.2.3".data "alpha.5".data
      (by decide) (by decide) (by decide) (by decide),
    patch_version_behavior.2.2.2.2.2.2 "1.2.3".data "meta.7".data
      (by decide) (by decide) (by decide),
    patch_version_behavior.2.2.2.2.1 "1.2.3".data 1 2 3 (by decide) (by decide) (by decide)⟩

/-- Counterexample for C4: a non-anchor package whose current version v1.2
does not parse yields a null patch result, and the run completes its planning
stages without any fatal error, carrying the null newVersion in the affected
set. -/
theorem patch_unparsable_no_fatal_cex :
    patchVersion "v1.2" = none ∧
      patch liftPkgBadVersion = none ∧
      isOkOutcome (publishModel { argsBase with dryRun := true } regEx worldBadVersion) =
        true ∧
      ({ toPackage := liftPkgBadVersion, newVersion := none } : ChangedPackage) ∈
        planAffected (publishModel { argsBase with dryRun := true } regEx worldBadVersion) :=
  ⟨by decide, by decide, by decide, by decide⟩

theorem maxNat_spec : ∀ (l : List Nat) (m : Nat), maxNat l = some m →
    m ∈ l ∧ ∀ x ∈ l, x ≤ m := by
  intro l
  induction l with
  | nil => intro m h; simp [maxNat] at h
  | cons a as ih =>
    intro m h
    unfold maxNat at h
    cases hm : maxNat as with
    | none =>
      rw [hm] at h
      injection h with h'
      subst h'
      have hnil : as = [] := by
        cases as with
        | nil => rfl
        | cons b bs =>
          unfold maxNat at hm
          cases hbs : maxNat bs <;> simp [hbs] at hm
      subst hnil
      exact ⟨by simp, by simp⟩
    | some m' =>
      rw [hm] at h
      injection h with h'
      subst h'
      obtain ⟨hmem, hle⟩ := ih m' hm
      constructor
      · split
        case isTrue _ => exact List.mem_cons_of_mem _ hmem
        case isFalse _ => exact List.mem_cons_self a as
      · intro x hx
        rcases List.mem_cons.mp hx with rfl | hx2
        · split
          case isTrue h => exact h
          case isFalse _ => exact Nat.le_refl _
        · have hxm := hle x hx2
          split
          case isTrue _ => exact hxm
          case isFalse hgt => exact hxm.trans (Nat.le_of_not_le hgt)

theorem plan_shape (args : Args) (reg : Registry) (w : World) (p : RunPlan)
    (h : publishModel args reg w = .ok (.plan p)) :
    p.prisma2Version = (match args.release with
      | some r => r
      | none => getNewPrisma2Version (getPackageDependencies w.raw) reg) ∧
    p.didPublish = (args.publishFlag || args.release.isSome) ∧
    p.affected = getPackagesAffectedByChange (getPackageDependencies w.raw) p.changes
      (args.release.isSome || args.updateStudio) p.prisma2Version := by
  unfold publishModel at h
  split at h
  · simp at h
  · split at h
    · simp at h
    · split at h
      · simp at h
      · simp only [mainStages] at h
        split at h
        · simp at h
        · split at h
          · simp at h
          · split at h
            · simp at h
            · injection h with h'
              injection h' with h''
              subst h''
              exact ⟨rfl, rfl, rfl⟩

theorem affected_newVersion (packages : List Package) (changes : List String) (force : Bool)
    (pv : String) :
    ∀ c ∈ getPackagesAffectedByChange packages changes force pv,
      (isAnchorName c.name = true → c.newVersion = some pv) ∧
      (isAnchorName c.name = false → c.newVersion = patchVersion c.version) := by
  intro c hc
  unfold getPackagesAffectedByChange at hc
  obtain ⟨n, _, hsome⟩ := List.mem_filterMap.mp hc
  cases hl : lookupPkg packages n with
  | none => rw [hl] at hsome; simp at hsome
  | some q =>
    rw [hl] at hsome
    simp only [Option.map_some'] at hsome
    injection hsome with h'
    subst h'
    constructor
    · intro ha
      simp only [newVersionOf]
      rw [if_pos ha]
    · intro ha
      simp only [newVersionOf]
      rw [if_neg (by simp [ha])]
      rfl

/-- C5 amended: every affected anchor package receives the single shared run
version — at the pipeline level the operator release when given, otherwise
the alpha computation — while every other affected package receives an
independent patch bump of its own current version; the alpha computation
renders 2.0.0-alpha.(N+1) where N is the maximum of the positive alpha
counters found across the four version sources, counters equal to zero being
discarded by the falsy filter of the source (so when only zero or absent
counters exist the rendered maximum is the JavaScript minus infinity). -/
theorem anchor_shared_version_derivation :
    (∀ (packages : List Package) (changes : List String) (force : Bool) (pv : String),
      ∀ c ∈ getPackagesAffectedByChange packages changes force pv,
        (isAnchorName c.name = true → c.newVersion = some pv) ∧
        (isAnchorName c.name = false → c.newVersion = patchVersion c.version)) ∧
    (∀ (args : Args) (reg : Registry) (w : World) (p : RunPlan),
      publishModel args reg w = .ok (.plan p) →
      p.prisma2Version = (match args.release with
        | some r => r
        | none => getNewPrisma2Version (getPackageDependencies w.raw) reg)) ∧
    (∀ (vs : List String) (m : Nat),
      maxNat (((vs.filter (fun v => !((strTrim v).data.isEmpty))).filterMap
          alphaCounter).filter (fun n => !(n == 0))) = some m →
      gnpvCore vs = "2.0.0-alpha." ++ toString (m + 1) ∧
      ∀ x ∈ ((vs.filter (fun v => !((strTrim v).data.isEmpty))).filterMap
          alphaCounter).filter (fun n => !(n == 0)), x ≤ m) ∧
    alphaCounter "2.0.0-alpha.12" = some 12 := by
  refine ⟨affected_newVersion, fun args reg w p h => (plan_shape args reg w p h).1,
    ?_, by decide⟩
  intro vs m h
  refine ⟨?_, (maxNat_spec _ m h).2⟩
  simp only [gnpvCore, h]

/-- Witness for C5 amended: the alpha computation applied to counters 12 and
3 (with one blank source) yields 2.0.0-alpha.13, the bump of the maximum. -/
theorem anchor_shared_version_derivation_witness :
    gnpvCore ["2.0.0-alpha.12", "", "2.0.0-alpha.3", "1.3.4"] = "2.0.0-alpha.13" ∧
      ∀ x ∈ ((["2.0.0-alpha.12", "", "2.0.0-alpha.3", "1.3.4"].filter
          (fun v => !((strTrim v).data.isEmpty))).filterMap alphaCounter).filter
          (fun n => !(n == 0)), x ≤ 12 :=
  anchor_shared_version_derivation.2.2.1 ["2.0.0-alpha.12", "", "2.0.0-alpha.3", "1.3.4"] 12
    (by decide)

/-- Counterexample for C5: when every alpha counter found equals zero, the
falsy filter discards them all and the computed version is the literal string
2.0.0-alpha.-Infinity instead of 2.0.0-alpha.1, the bump of the maximum
counter found. -/
theorem alpha_zero_counter_cex :
    getNewPrisma2Version (getPackageDependencies rawsAlphaZero) regAlphaZero =
        "2.0.0-alpha.-Infinity" ∧
      getNewPrisma2Version (getPackageDependencies rawsAlphaZero) regAlphaZero ≠
        "2.0.0-alpha.1" :=
  ⟨by decide, by decide⟩

theorem releaseChecks_err_of_not (r cur : String)
    (hbad : ¬ ((semverParse r).isSome = true ∧ semverGtB r cur = true ∧
      strIncludes r "preview0" = true)) :
    ∃ e, releaseChecks r cur = .error e := by
  unfold releaseChecks
  split_ifs with h1 h2 h3 h4
  · exact ⟨_, rfl⟩
  · exact ⟨_, rfl⟩
  · exact ⟨_, rfl⟩
  · exact ⟨_, rfl⟩
  · exfalso
    apply hbad
    refine ⟨?_, ?_, ?_⟩
    · cases hp : semverParse r with
      | none => exact absurd (by simp [hp]) h1
      | some v => simp [hp]
    · simpa using h3
    · simpa using h4

/-- C6: when an explicit release version is supplied, the run raises a fatal
error whose identity does not depend on the package loader or version-control
world — that is, before any graph construction or scheduling — unless the
version is syntactically valid semver, strictly greater than the currently
published anchor version, and carries the preview0 channel substring; and a
supplied release version forces publish mode in every successfully planned
run. -/
theorem release_validation_preflight (args : Args) (reg : Registry) (r : String)
    (hrel : args.release = some r)
    (hpull : args.pullMode = false) (hstatus : args.statusMode = false) :
    ((¬ ((semverParse r).isSome = true ∧ semverGtB r reg.prisma2Latest = true ∧
        strIncludes r "preview0" = true)) →
      ∃ e, ∀ w : World, publishModel args reg w = .error e) ∧
    (∀ (w : World) (p : RunPlan), publishModel args reg w = .ok (.plan p) →
      p.didPublish = true) := by
  constructor
  · intro hbad
    by_cases hdp : (args.dryRun && args.publishFlag) = true
    · exact ⟨.dryRunAndPublish, fun w => by
        simp [publishModel, hpull, hstatus, preflight, hdp]⟩
    · obtain ⟨e, he⟩ := releaseChecks_err_of_not r reg.prisma2Latest hbad
      exact ⟨e, fun w => by
        simp [publishModel, hpull, hstatus, preflight, hdp, hrel, he]⟩
  · intro w p h
    have := (plan_shape args reg w p h).2.1
    rw [this, hrel]
    simp

/-- Witness for C6: the release string 2.0.0 parses and exceeds the published
version but misses the preview0 channel substring, so the run aborts
identically for every world, and any successfully planned run with a release
has publish mode forced. -/
theorem release_validation_preflight_witness :
    ((¬ ((semverParse "2.0.0").isSome = true ∧
        semverGtB "2.0.0" regEx.prisma2Latest = true ∧
        strIncludes "2.0.0" "preview0" = true)) →
      ∃ e, ∀ w : World,
        publishModel { argsBase with release := some "2.0.0" } regEx w = .error e) ∧
    (∀ (w : World) (p : RunPlan),
      publishModel { argsBase with release := some "2.0.0" } regEx w = .ok (.plan p) →
      p.didPublish = true) :=
  release_validation_preflight { argsBase with release := some "2.0.0" } regEx "2.0.0"
    rfl rfl rfl

theorem changes_branch_empty (w : World) (allRepos : Bool) (commits : List Commit)
    (hne : commits ≠ [])
    (hGC : ∀ c, getChangesFromCommit w c = .error .noChangesDetected) :
    (if allRepos then
        (exceptMapM (fun c => getChangesFromCommit w c)
          (sortLe (fun a b => decide (b.dateN ≤ a.dateN)) commits)).map (fun ls => ls.flatten)
      else getChangesFromCommit w
        ((sortLe (fun a b => decide (b.dateN ≤ a.dateN)) commits).headD
          (getLatestCommit w "prisma2"))) = .error .noChangesDetected := by
  cases hs : sortLe (fun a b => decide (b.dateN ≤ a.dateN)) commits with
  | nil =>
    exfalso
    have hp := sortLe_perm (fun a b => decide (b.dateN ≤ a.dateN)) commits
    rw [hs] at hp
    exact hne hp.symm.eq_nil
  | cons c rest =>
    cases allRepos with
    | false => simp [hGC]
    | true => simp [exceptMapM, hGC, Except.map]

theorem getLatestChanges_empty_diff (w : World) (allRepos : Bool) (repo : Option String)
    (dirty : Bool)
    (hclean : ∀ d, (strTrim (w.unsavedOf d)).data.isEmpty = true)
    (hdiff : ∀ d, (strTrim (w.diffOf d)).data.isEmpty = true) :
    getLatestChanges w allRepos repo dirty = .error .noChangesDetected := by
  have hGC : ∀ c, getChangesFromCommit w c = .error .noChangesDetected := by
    intro c
    simp [getChangesFromCommit, hdiff c.dir]
  have hEns : ∀ d, ensureChangedAreSaved w d = .ok () := by
    intro d
    simp [ensureChangedAreSaved, getUnsavedChanges, hclean d]
  have hSaved : savedGate w dirty = .ok () := by
    unfold savedGate
    split
    · rfl
    · simp [hEns, bind, Except.bind]
  unfold getLatestChanges
  rw [if_neg (by simp [jsTruthyArray])]
  simp only [hSaved]
  cases repo with
  | none => exact changes_branch_empty w allRepos _ (by simp) hGC
  | some r => exact changes_branch_empty w allRepos _ (by simp) hGC

/-- C7 amended: an empty change-detection result is fatal in every mode: the
no-changes error is raised inside change detection itself, before the
forced-anchor-only flag is ever consulted, so a run whose diffs are all blank
fails with the no-changes error whether or not a release version (forced
anchor-only mode) is supplied. -/
theorem empty_changes_always_fatal (args : Args) (reg : Registry) (w : World)
    (hpull : args.pullMode = false) (hstatus : args.statusMode = false)
    (hpre : preflight args reg = .ok ())
    (hcirc : getCircularDependencies (getPackageDependencies w.raw) = [])
    (hclean : ∀ d, (strTrim (w.unsavedOf d)).data.isEmpty = true)
    (hdiff : ∀ d, (strTrim (w.diffOf d)).data.isEmpty = true) :
    publishModel args reg w = .error .noChangesDetected := by
  simp only [publishModel, hpull, hstatus, hpre, Bool.false_eq_true, if_false]
  simp only [mainStages, hcirc]
  rw [getLatestChanges_empty_diff w _ _ _ hclean hdiff]
  simp

/-- Witness for C7 amended: a plain run over the blank-diff world fails with
the no-changes error. -/
theorem empty_changes_always_fatal_witness :
    publishModel argsBase regEx worldEmptyDiff = .error .noChangesDetected :=
  empty_changes_always_fatal argsBase regEx worldEmptyDiff rfl rfl rfl (by decide)
    (fun _ => rfl) (fun _ => rfl)

/-- Counterexample for C7: in forced anchor-only mode — a valid release
version is supplied — an empty change list is still fatal: the same
no-changes error is raised during change detection. -/
theorem empty_changes_forced_mode_fatal_cex :
    ({ argsBase with release := some "2.0.0-preview014" } : Args).release.isSome = true ∧
      errOf (publishModel { argsBase with release := some "2.0.0-preview014" } regEx
          worldEmptyDiff) = some .noChangesDetected :=
  ⟨rfl, by decide⟩

theorem exists_source {α : Type} [DecidableEq α] (edge : α → α → Prop) (R : List α)
    (hne : R ≠ []) (hacyc : ∀ n, ¬ Relation.TransGen edge n n) :
    ∃ n ∈ R, ∀ m ∈ R, ¬ edge m n := by
  by_contra hns
  push_neg at hns
  choose g hg1 hg2 using hns
  obtain ⟨x0, hx0⟩ := List.exists_mem_of_ne_nil R hne
  let f : Nat → {x : α // x ∈ R} := fun k =>
    Nat.rec ⟨x0, hx0⟩ (fun _ p => ⟨g p.1 p.2, hg1 p.1 p.2⟩) k
  have hstep : ∀ k, edge (f (k + 1)).1 (f k).1 := fun k => hg2 (f k).1 (f k).2
  have hchain : ∀ d k, Relation.TransGen edge (f (k + d + 1)).1 (f k).1 := by
    intro d
    induction d with
    | zero => intro k; exact Relation.TransGen.single (hstep k)
    | succ m ih =>
      intro k
      exact Relation.TransGen.head (hstep (k + m + 1)) (ih k)
  have hmaps : ∀ i : Fin (R.length + 1), (f i.1).1 ∈ R.toFinset := fun i =>
    List.mem_toFinset.mpr (f i.1).2
  have hcard : R.toFinset.card < (Finset.univ : Finset (Fin (R.length + 1))).card := by
    have h1 := List.toFinset_card_le R
    rw [Finset.card_univ, Fintype.card_fin]
    omega
  obtain ⟨i, -, j, -, hij, heq⟩ :=
    Finset.exists_ne_map_eq_of_card_lt_of_maps_to hcard (fun i _ => hmaps i)
  have hij' : i.1 ≠ j.1 := fun h => hij (Fin.ext h)
  rcases Nat.lt_or_ge i.1 j.1 with hlt | hge
  · obtain ⟨d, hd⟩ : ∃ d, j.1 = i.1 + d + 1 := ⟨j.1 - i.1 - 1, by omega⟩
    have hc := hchain d i.1
    rw [← hd] at hc
    rw [heq] at hc
    exact hacyc _ hc
  · have hlt2 : j.1 < i.1 := by omega
    obtain ⟨d, hd⟩ : ∃ d, i.1 = j.1 + d + 1 := ⟨i.1 - j.1 - 1, by omega⟩
    have hc := hchain d j.1
    rw [← hd] at hc
    rw [← heq] at hc
    exact hacyc _ hc

theorem dagEdge_node (dag : List (String × List String)) {n c : String}
    (hc : c ∈ adjOf dag n) : n ∈ dagNodes dag := by
  cases hf : dag.find? (fun e => e.1 == n) with
  | none =>
    have : adjOf dag n = [] := by simp [adjOf, hf]
    rw [this] at hc
    simp at hc
  | some e =>
    have he := List.find?_some hf
    have hmem := List.mem_of_find?_eq_some hf
    simp only [beq_iff_eq] at he
    exact List.mem_map.mpr ⟨e, hmem, he⟩

theorem acyclicB_no_selfloop (dag : List (String × List String))
    (hclosed : ∀ n ∈ dagNodes dag, ∀ q ∈ adjOf dag n, q ∈ dagNodes dag)
    (hacyc : acyclicB dag = true) :
    ∀ n, ¬ Relation.TransGen (dagEdge dag) n n := by
  intro n hn
  obtain ⟨c, hc, hrtg⟩ := Relation.TransGen.head'_iff.mp hn
  have hnode : n ∈ dagNodes dag := dagEdge_node dag hc
  have hsub : ∀ x ∈ adjOf dag n, x ∈ dagNodes dag := hclosed n hnode
  have hcard : (dagNodes dag).toFinset.card ≤ dag.length + (adjOf dag n).toFinset.card := by
    have h1 := List.toFinset_card_le (dagNodes dag)
    have h2 : (dagNodes dag).length = dag.length := List.length_map _ _
    omega
  have hBclosed : IsClosedAdj (adjOf dag) (dagNodes dag) := fun x hx q hq => hclosed x hx q hq
  have hmem : n ∈ closureAux (adjOf dag) dag.length (adjOf dag n) :=
    (mem_closureAux_iff (adjOf dag) (dagNodes dag) hBclosed dag.length (adjOf dag n) hsub
      hcard n).mpr ⟨c, hc, hrtg⟩
  have hall := List.all_eq_true.mp hacyc n hnode
  rw [Bool.not_eq_true'] at hall
  have : n ∉ closureAux (adjOf dag) dag.length (adjOf dag n) := by
    intro hmem2
    rw [← List.elem_iff] at hmem2
    simp only [List.contains] at hall
    rw [hmem2] at hall
    cases hall
  exact this hmem

theorem batchIdx_of_mem_flatten (x : String) :
    ∀ bs : List (List String), x ∈ bs.flatten → ∃ j, batchIdx x bs = some j := by
  intro bs
  induction bs with
  | nil => intro h; simp at h
  | cons b rest ih =>
    intro h
    by_cases hxb : x ∈ b
    · exact ⟨0, by simp [batchIdx, hxb]⟩
    · have hx : x ∈ rest.flatten := by
        rw [List.flatten_cons] at h
        rcases List.mem_append.mp h with h1 | h1
        · exact absurd h1 hxb
        · exact h1
      obtain ⟨j, hj⟩ := ih hx
      exact ⟨j + 1, by simp [batchIdx, hxb, hj]⟩

theorem length_filter_lt {α : Type} (p : α → Bool) (l : List α) (x : α) (hx : x ∈ l)
    (hpx : p x = false) : (l.filter p).length < l.length := by
  induction l with
  | nil => cases hx
  | cons a as ih =>
    rcases List.mem_cons.mp hx with rfl | hxs
    · have h1 := List.length_filter_le p as
      simp [List.filter_cons, hpx]
      omega
    · by_cases hpa : p a = true
      · have h1 := ih hxs
        simp [List.filter_cons, hpa]
        omega
      · have h1 := List.length_filter_le p as
        simp [List.filter_cons, hpa]
        omega

theorem contains_iff_mem {α : Type} [BEq α] [LawfulBEq α] (l : List α) (x : α) :
    l.contains x = true ↔ x ∈ l :=
  List.elem_iff

theorem topoGo_spec (dag : List (String × List String))
    (hacyc : ∀ n, ¬ Relation.TransGen (dagEdge dag) n n) :
    ∀ (fuel : Nat) (R : List String), R.length ≤ fuel → R.Nodup →
      ∃ batches, topoGo dag fuel R = some batches ∧
        batches.flatten.Perm R ∧
        (∀ p q, p ∈ R → q ∈ R → q ∈ adjOf dag p →
          ∃ i j, i < j ∧ batchIdx p batches = some i ∧ batchIdx q batches = some j) := by
  intro fuel
  induction fuel with
  | zero =>
    intro R hlen hnd
    have hR : R = [] := List.eq_nil_of_length_eq_zero (Nat.le_zero.mp hlen)
    subst hR
    exact ⟨[], by simp [topoGo], by simp, by intro p q hp; simp at hp⟩
  | succ fl ih =>
    intro R hlen hnd
    by_cases hR : R = []
    · subst hR
      exact ⟨[], by simp [topoGo], by simp, by intro p q hp; simp at hp⟩
    · obtain ⟨src, hsrcR, hsrc⟩ := exists_source (dagEdge dag) R hR hacyc
      have hbmem : ∀ x, x ∈ topoStep dag R ↔ (x ∈ R ∧
          (R.any (fun m => (adjOf dag m).contains x)) = false) := by
        intro x
        simp [topoStep, List.mem_filter, Bool.not_eq_true']
      have hsrcb : src ∈ topoStep dag R := by
        rw [hbmem]
        refine ⟨hsrcR, ?_⟩
        rw [List.any_eq_false]
        intro m hm hcon
        exact hsrc m hm ((contains_iff_mem _ _).mp hcon)
      have hbne : ¬ (topoStep dag R).isEmpty = true := by
        rw [List.isEmpty_iff]
        exact List.ne_nil_of_mem hsrcb
      set b := topoStep dag R with hbdef
      set R' := R.filter (fun x => !(b.contains x)) with hRfilt
      have hsrc_drop : (fun x => !(b.contains x)) src = false := by
        simp [hsrcb]
      have hlt : R'.length < R.length :=
        length_filter_lt _ R src hsrcR hsrc_drop
      have hnd' : R'.Nodup := hnd.filter _
      obtain ⟨rest, hrest, hperm, hord⟩ := ih R' (by omega) hnd'
      have hmemR' : ∀ x, x ∈ R → x ∉ b → x ∈ R' := by
        intro x hxR hxb
        refine List.mem_filter.mpr ⟨hxR, ?_⟩
        rw [Bool.not_eq_true']
        cases hc : b.contains x with
        | false => rfl
        | true => exact absurd ((contains_iff_mem b x).mp hc) hxb
      refine ⟨b :: rest, ?_, ?_, ?_⟩
      · simp only [topoGo]
        rw [if_neg (by simpa [List.isEmpty_iff] using hR), if_neg hbne, hrest]
      · have hR'eq : R' = R.filter (fun x => R.any (fun m => (adjOf dag m).contains x)) := by
          rw [hRfilt]
          apply List.filter_congr
          intro x hxR
          cases hany : R.any (fun m => (adjOf dag m).contains x) with
          | false =>
            have hxb : x ∈ b := (hbmem x).mpr ⟨hxR, hany⟩
            simp [hxb]
          | true =>
            have hnb : x ∉ b := by
              intro hxb
              have h2 := ((hbmem x).mp hxb).2
              rw [hany] at h2
              cases h2
            simp [hnb]
        have hb_eq : b = R.filter (fun x =>
            !(R.any (fun m => (adjOf dag m).contains x))) := by
          rw [hbdef]
          rfl
        have hsplit := List.filter_append_perm
          (fun x => !(R.any (fun m => (adjOf dag m).contains x))) R
        simp only [Bool.not_not] at hsplit
        have hbR' : (b ++ R').Perm R := by
          rw [hb_eq, hR'eq]
          exact hsplit
        rw [List.flatten_cons]
        exact (hperm.append_left b).trans hbR'
      · intro p q hp hq hpq
        by_cases hqb : q ∈ b
        · exfalso
          have h2 := ((hbmem q).mp hqb).2
          rw [List.any_eq_false] at h2
          exact h2 p hp ((contains_iff_mem _ q).mpr hpq)
        · have hqR' : q ∈ R' := hmemR' q hq hqb
          by_cases hpb : p ∈ b
          · have hqf : q ∈ rest.flatten := hperm.mem_iff.mpr hqR'
            obtain ⟨j, hj⟩ := batchIdx_of_mem_flatten q rest hqf
            exact ⟨0, j + 1, by omega, by simp [batchIdx, hpb], by simp [batchIdx, hqb, hj]⟩
          · have hpR' : p ∈ R' := hmemR' p hp hpb
            obtain ⟨i, j, hij, hpi, hqj⟩ := hord p q hpR' hqR' hpq
            exact ⟨i + 1, j + 1, by omega, by simp [batchIdx, hpb, hpi],
              by simp [batchIdx, hqb, hqj]⟩

theorem dagNodes_pkgDag (packages : List Package) :
    dagNodes (pkgDag packages) = pkgNames packages := by
  simp [dagNodes, pkgDag, pkgNames]

theorem adjOf_cons_ne (e : String × List String) (dag : List (String × List String))
    (n : String) (hne : e.1 ≠ n) : adjOf (e :: dag) n = adjOf dag n := by
  have hb : (e.1 == n) = false := by simpa using hne
  simp [adjOf, List.find?, hb]

theorem pkgDag_adjOf (packages : List Package) (hnd : (pkgNames packages).Nodup) :
    ∀ p ∈ packages, adjOf (pkgDag packages) p.name = p.usedBy ++ p.usedByDev := by
  induction packages with
  | nil => intro p hp; cases hp
  | cons a as ih =>
    intro p hp
    have hnd2 : a.name ∉ pkgNames as ∧ (pkgNames as).Nodup := by
      have := hnd
      simp only [pkgNames, List.map_cons, List.nodup_cons] at this
      exact this
    rcases List.mem_cons.mp hp with rfl | hpas
    · simp [pkgDag, adjOf, List.find?]
    · have hne : a.name ≠ p.name := by
        intro h
        exact hnd2.1 (h ▸ List.mem_map.mpr ⟨p, hpas, rfl⟩)
      have hstep : pkgDag (a :: as) =
          (a.name, a.usedBy ++ a.usedByDev) :: pkgDag as := by
        simp [pkgDag]
      rw [hstep, adjOf_cons_ne _ _ _ hne]
      exact ih hnd2.2 p hpas

theorem pkgDag_closed (packages : List Package)
    (hclosed : ∀ p ∈ packages, ∀ q ∈ p.usedBy ++ p.usedByDev, q ∈ pkgNames packages) :
    ∀ n ∈ dagNodes (pkgDag packages), ∀ q ∈ adjOf (pkgDag packages) n,
      q ∈ dagNodes (pkgDag packages) := by
  intro n _ q hq
  rw [dagNodes_pkgDag]
  cases hf : (pkgDag packages).find? (fun e => e.1 == n) with
  | none => simp [adjOf, hf] at hq
  | some e =>
    have hmem := List.mem_of_find?_eq_some hf
    obtain ⟨p, hp, hpe⟩ := List.mem_map.mp (by simpa [pkgDag] using hmem)
    simp only [adjOf, hf] at hq
    rw [← hpe] at hq
    exact hclosed p hp q hq

/-- C2: for every package graph with unique names, closed reverse edges and
an acyclic dependency DAG, getPublishOrder succeeds and the returned batches
partition the packages — their concatenation is a permutation of the package
names — and every dependency edge (P used by Q, directly or as a dev
dependency) places P in a batch of strictly smaller index than Q, so each
batch contains only packages all of whose workspace dependencies lie in
earlier batches. -/
theorem publish_order_batches_partition_and_respect_edges (packages : List Package)
    (hnd : (pkgNames packages).Nodup)
    (hclosed : ∀ p ∈ packages, ∀ q ∈ p.usedBy ++ p.usedByDev, q ∈ pkgNames packages)
    (hacyc : acyclicB (pkgDag packages) = true) :
    ∃ batches, getPublishOrder packages = some batches ∧
      batches.flatten.Perm (pkgNames packages) ∧
      (∀ p ∈ packages, ∀ q ∈ p.usedBy ++ p.usedByDev,
        ∃ i j, i < j ∧ batchIdx p.name batches = some i ∧ batchIdx q batches = some j) := by
  have hdagclosed := pkgDag_closed packages hclosed
  have hnosl := acyclicB_no_selfloop (pkgDag packages) hdagclosed hacyc
  have hlen : (dagNodes (pkgDag packages)).length ≤ (pkgDag packages).length := by
    simp [dagNodes]
  have hndn : (dagNodes (pkgDag packages)).Nodup := by
    rw [dagNodes_pkgDag]
    exact hnd
  obtain ⟨batches, hgo, hperm, hord⟩ :=
    topoGo_spec (pkgDag packages) hnosl (pkgDag packages).length
      (dagNodes (pkgDag packages)) hlen hndn
  refine ⟨batches, hgo, ?_, ?_⟩
  · rw [← dagNodes_pkgDag]
    exact hperm
  · intro p hp q hq
    have hpn : p.name ∈ dagNodes (pkgDag packages) := by
      rw [dagNodes_pkgDag]
      exact List.mem_map.mpr ⟨p, hp, rfl⟩
    have hqn : q ∈ dagNodes (pkgDag packages) := by
      rw [dagNodes_pkgDag]
      exact hclosed p hp q hq
    have hadj : q ∈ adjOf (pkgDag packages) p.name := by
      rw [pkgDag_adjOf packages hnd p hp]
      exact hq
    exact hord p.name q hpn hqn hadj

/-- Witness for C2: the publish-order properties instantiated on the example
workspace of photon, lift and the prisma2 cli. -/
theorem publish_order_batches_witness :
    ∃ batches, getPublishOrder examplePackages = some batches ∧
      batches.flatten.Perm (pkgNames examplePackages) ∧
      (∀ p ∈ examplePackages, ∀ q ∈ p.usedBy ++ p.usedByDev,
        ∃ i j, i < j ∧ batchIdx p.name batches = some i ∧ batchIdx q batches = some j) :=
  publish_order_batches_partition_and_respect_edges examplePackages (by decide) (by decide)
    (by decide)

end Publish

